import Mathlib

/-!
Verification of the DIPlib image-processing library (this repository's C++
sources) against its natural-language specification.

Shallow embedding: C++ integers become `Int`/`Nat` with explicit wraparound
(`% 2^w`) where the machine width matters, floating-point inputs whose uses
here are exact (floor, comparison, division by 2, max) become `ℚ`, images
become lists or functions on `Fin`, and fallible constructors return
`Except`.  Each definition is translated from the corresponding C++
function; the file then states and proves or refutes the claims about them.
-/

namespace DIP

/-! ## Saturated arithmetic (src/include/diplib/saturated_arithmetic.h)

The signed 8/16/32-bit specializations of `saturated_add`, `saturated_sub`
and `saturated_mul` cast both operands to the next larger signed integer
type (`sint16`, `sint32`, `int64_t`), compute there, and pass the result to
`clamp_both< T, U >`, which clamps it into `[lowest, max]` of the original
type.  We model a `b`-bit signed value as an `Int` in
`[-2^(b-1), 2^(b-1)-1]`.  Arithmetic in the doubled-width type is modeled
faithfully as arithmetic modulo `2^(2b)` in two's complement
(`wrapSigned (2*b)`), so that the theorem — not the definition — carries
the fact that the wider type never overflows. -/

/-- Smallest value of a `b`-bit two's-complement signed integer
(`std::numeric_limits::lowest()`). -/
def sMin (b : ℕ) : ℤ := -(2 ^ (b - 1))

/-- Largest value of a `b`-bit two's-complement signed integer
(`std::numeric_limits::max()`). -/
def sMax (b : ℕ) : ℤ := 2 ^ (b - 1) - 1

/-- `v` is representable in the `b`-bit signed type. -/
def sInRange (b : ℕ) (v : ℤ) : Prop := sMin b ≤ v ∧ v ≤ sMax b

instance (b : ℕ) (v : ℤ) : Decidable (sInRange b v) := by
  unfold sInRange; infer_instance

/-- Two's-complement wraparound of an integer into the `b`-bit signed range:
what storing an arbitrary integer in a `b`-bit signed register keeps. -/
def wrapSigned (b : ℕ) (v : ℤ) : ℤ := (v + 2 ^ (b - 1)) % 2 ^ b - 2 ^ (b - 1)

/-- `clamp_both< T, U >` from diplib/library/clamp_cast.h.  Modelled from the
spec: clamp_cast.h is not part of the inspected sources; the spec says every
signed operator "widens to the next larger signed integer type, computes
there, then clamps the result into `[min,max]` of the original type". -/
def clamp_both (b : ℕ) (v : ℤ) : ℤ := max (sMin b) (min (sMax b) v)

/-- `saturated_add` for the signed `b`-bit kind: the sum is formed in the
`2b`-bit type and clamped into the `b`-bit range. -/
def saturated_add_signed (b : ℕ) (lhs rhs : ℤ) : ℤ :=
  clamp_both b (wrapSigned (2 * b) (lhs + rhs))

/-- `saturated_sub` for the signed `b`-bit kind. -/
def saturated_sub_signed (b : ℕ) (lhs rhs : ℤ) : ℤ :=
  clamp_both b (wrapSigned (2 * b) (lhs - rhs))

/-- `saturated_mul` for the signed `b`-bit kind. -/
def saturated_mul_signed (b : ℕ) (lhs rhs : ℤ) : ℤ :=
  clamp_both b (wrapSigned (2 * b) (lhs * rhs))

/-- `saturated_inv` for the signed `b`-bit kind: negation, except that the
smallest representable value maps to the largest. -/
def saturated_inv_signed (b : ℕ) (v : ℤ) : ℤ :=
  if v = sMin b then sMax b else -v

end DIP

namespace DIP

theorem sMin_le_sMax {b : ℕ} : sMin b ≤ sMax b := by
  have h : (0 : ℤ) < 2 ^ (b - 1) := by positivity
  unfold sMin sMax
  omega

theorem clamp_both_inRange (b : ℕ) (v : ℤ) :
    sInRange b (clamp_both b v) := by
  have h := sMin_le_sMax (b := b)
  unfold clamp_both sInRange
  constructor
  · exact le_max_left _ _
  · have h1 : min (sMax b) v ≤ sMax b := min_le_left _ _
    omega

/-- If `v` fits in the `b`-bit signed range, wrapping changes nothing. -/
theorem wrapSigned_eq_self {b : ℕ} (hb : 1 ≤ b) {v : ℤ} (h : sInRange b v) :
    wrapSigned b v = v := by
  obtain ⟨k, rfl⟩ : ∃ k, b = k + 1 := ⟨b - 1, by omega⟩
  obtain ⟨h1, h2⟩ := h
  unfold sMin at h1
  unfold sMax at h2
  unfold wrapSigned
  simp only [Nat.add_sub_cancel] at h1 h2 ⊢
  have hp : (2 : ℤ) ^ (k + 1) = 2 ^ k * 2 := by ring
  have hlt : v + 2 ^ k < 2 ^ (k + 1) := by omega
  have hge : 0 ≤ v + 2 ^ k := by omega
  rw [Int.emod_eq_of_lt hge hlt]
  omega

/-- `2^(b-1) · 2 ≤ 2^(2b-1)` for `b ≥ 1`: the next-larger signed type can
hold twice the half-range of the original type. -/
theorem half_range_double {b : ℕ} (hb : 1 ≤ b) :
    (2 : ℤ) ^ (b - 1) * 2 ≤ 2 ^ (2 * b - 1) := by
  have h : b - 1 + 1 ≤ 2 * b - 1 := by omega
  calc (2 : ℤ) ^ (b - 1) * 2 = 2 ^ (b - 1 + 1) := by ring
  _ ≤ 2 ^ (2 * b - 1) := pow_le_pow_right₀ (by norm_num) h

/-- The doubled-width signed type holds the exact sum of two in-range
values: `-2^b ≤ lhs + rhs ≤ 2^b - 2 < 2^(2b-1)` for `b ≥ 1`. -/
theorem wrap_add_exact {b : ℕ} (hb : 1 ≤ b) {lhs rhs : ℤ}
    (hl : sInRange b lhs) (hr : sInRange b rhs) :
    wrapSigned (2 * b) (lhs + rhs) = lhs + rhs := by
  apply wrapSigned_eq_self (by omega)
  obtain ⟨l1, l2⟩ := hl
  obtain ⟨r1, r2⟩ := hr
  unfold sInRange sMin sMax at *
  have hpow := half_range_double hb
  constructor <;> omega

theorem wrap_sub_exact {b : ℕ} (hb : 1 ≤ b) {lhs rhs : ℤ}
    (hl : sInRange b lhs) (hr : sInRange b rhs) :
    wrapSigned (2 * b) (lhs - rhs) = lhs - rhs := by
  apply wrapSigned_eq_self (by omega)
  obtain ⟨l1, l2⟩ := hl
  obtain ⟨r1, r2⟩ := hr
  unfold sInRange sMin sMax at *
  have hpow := half_range_double hb
  constructor <;> omega

theorem wrap_mul_exact {b : ℕ} (hb : 1 ≤ b) {lhs rhs : ℤ}
    (hl : sInRange b lhs) (hr : sInRange b rhs) :
    wrapSigned (2 * b) (lhs * rhs) = lhs * rhs := by
  apply wrapSigned_eq_self (by omega)
  obtain ⟨l1, l2⟩ := hl
  obtain ⟨r1, r2⟩ := hr
  unfold sInRange sMin sMax at *
  have habs_l : |lhs| ≤ 2 ^ (b - 1) := abs_le.mpr ⟨by omega, by omega⟩
  have habs_r : |rhs| ≤ 2 ^ (b - 1) := abs_le.mpr ⟨by omega, by omega⟩
  have hprod : |lhs * rhs| ≤ 2 ^ (b - 1) * 2 ^ (b - 1) := by
    rw [abs_mul]
    exact mul_le_mul habs_l habs_r (abs_nonneg _) (by positivity)
  have hpow : (2 : ℤ) ^ (b - 1) * 2 ^ (b - 1) * 2 ≤ 2 ^ (2 * b - 1) := by
    have h2 : (b - 1) + (b - 1) + 1 ≤ 2 * b - 1 := by omega
    calc (2 : ℤ) ^ (b - 1) * 2 ^ (b - 1) * 2
        = 2 ^ ((b - 1) + (b - 1) + 1) := by rw [pow_add, pow_add]; ring
    _ ≤ 2 ^ (2 * b - 1) := pow_le_pow_right₀ (by norm_num) h2
  obtain ⟨hm1, hm2⟩ := abs_le.mp hprod
  have hA1 : (0 : ℤ) < 2 ^ (b - 1) * 2 ^ (b - 1) := by positivity
  constructor <;> omega

/-- **C1.** For every pair of in-range values of a signed 8/16/32-bit kind,
`saturated_add`, `saturated_sub` and `saturated_mul` equal the exact
operation computed in the next larger signed type and clamped into
`[min,max]` of the original kind, and the result is always in that kind's
representable range; and `saturated_inv v` is `-v` for every `v` except the
minimum, which maps to the maximum. -/
theorem saturated_signed_ops_clamp_exact (b : ℕ)
    (hb : b = 8 ∨ b = 16 ∨ b = 32) (lhs rhs : ℤ)
    (hl : sInRange b lhs) (hr : sInRange b rhs) :
    saturated_add_signed b lhs rhs = clamp_both b (lhs + rhs) ∧
    saturated_sub_signed b lhs rhs = clamp_both b (lhs - rhs) ∧
    saturated_mul_signed b lhs rhs = clamp_both b (lhs * rhs) ∧
    sInRange b (saturated_add_signed b lhs rhs) ∧
    sInRange b (saturated_sub_signed b lhs rhs) ∧
    sInRange b (saturated_mul_signed b lhs rhs) ∧
    (lhs ≠ sMin b → saturated_inv_signed b lhs = -lhs) ∧
    saturated_inv_signed b (sMin b) = sMax b := by
  have hb1 : 1 ≤ b := by rcases hb with h | h | h <;> omega
  refine ⟨?_, ?_, ?_, ?_, ?_, ?_, ?_, ?_⟩
  · unfold saturated_add_signed; rw [wrap_add_exact hb1 hl hr]
  · unfold saturated_sub_signed; rw [wrap_sub_exact hb1 hl hr]
  · unfold saturated_mul_signed; rw [wrap_mul_exact hb1 hl hr]
  · exact clamp_both_inRange _ _
  · exact clamp_both_inRange _ _
  · exact clamp_both_inRange _ _
  · intro hne; unfold saturated_inv_signed; rw [if_neg hne]
  · unfold saturated_inv_signed; rw [if_pos rfl]

/-- Witness for C1 at concrete inputs (the doctest values
`saturated_mul(sint16(300), sint16(1000)) == 32767` and
`saturated_inv(sint16(-32768)) == 32767`). -/
theorem saturated_signed_ops_clamp_exact_witness :
    (16 = 8 ∨ 16 = 16 ∨ 16 = 32) ∧ sInRange 16 300 ∧ sInRange 16 1000 ∧
    saturated_mul_signed 16 300 1000 = 32767 ∧
    saturated_inv_signed 16 (sMin 16) = sMax 16 := by
  refine ⟨by norm_num, by decide, by decide, ?_, ?_⟩
  · have h := saturated_signed_ops_clamp_exact 16 (by norm_num) 300 1000
      (by decide) (by decide)
    rw [h.2.2.1]
    decide
  · exact (saturated_signed_ops_clamp_exact 16 (by norm_num) 300 300
      (by decide) (by decide)).2.2.2.2.2.2.2

end DIP

namespace DIP

/-! ## PixelTable sizes (src/src/library/pixel_table.cpp)

`PixelTable::PixelTable( String shape, FloatArray size, dip::uint procDim )`
for the "unit circle" shapes first clamps every entry of `size` to at least
1.0, then stores per-dimension extents:
  * `rectangular`: `sizes_[ii] = static_cast< dip::uint >( size[ ii ] )`
    (truncation of a nonnegative double, i.e. floor);
  * `elliptic` / `diamond`:
    `sizes_[ii] = ( static_cast< dip::uint >( size[ ii ] ) / 2 ) * 2 + 1`.
Doubles are modelled as `ℚ` (every double is a rational and the operations
used — `max`, truncation — are exact).  The runs the constructor also
builds do not feed back into `sizes_`, so they are not needed here.  The
processing dimension only selects which dimension runs go along; it does
not enter the `sizes_` computation. -/

/-- The named "unit circle" neighborhood shapes of the `PixelTable`
constructor (the `line` shape follows a different code path). -/
inductive UnitCircleShape
  | rectangular
  | elliptic
  | diamond
deriving DecidableEq

/-- `static_cast< dip::uint >` of a nonnegative double: truncation. -/
def castUint (s : ℚ) : ℕ := ⌊s⌋.toNat

/-- Per-dimension extent stored by the `PixelTable` constructor, after the
`s = std::max( 1.0, s )` normalization pass. -/
def pixelTableSize1 (shape : UnitCircleShape) (s : ℚ) : ℕ :=
  match shape with
  | .rectangular => castUint (max 1 s)
  | .elliptic => castUint (max 1 s) / 2 * 2 + 1
  | .diamond => castUint (max 1 s) / 2 * 2 + 1

/-- `Sizes()` of a `PixelTable` built from a named unit-circle shape. -/
def pixelTableSizes (shape : UnitCircleShape) (size : List ℚ) : List ℕ :=
  size.map (pixelTableSize1 shape)

/-- The extent the claim predicts for dimension size `s`:
`(floor(size)/2)*2+1`. -/
def claimedOddExtent (s : ℚ) : ℕ := castUint s / 2 * 2 + 1

/-- **C3 counterexample.** For the `rectangular` shape the stored extent is
the truncated size itself, not `(floor(size)/2)*2+1`: with per-dimension
size 22.2 (the constructor's own doctest case) the stored extent is the
even number 22, while the claimed formula yields 23. -/
theorem pixelTableSizes_rectangular_not_odd :
    pixelTableSizes .rectangular [111/5] = [22] ∧
    claimedOddExtent (111/5) = 23 ∧
    pixelTableSizes .rectangular [111/5] ≠ [claimedOddExtent (111/5)] := by
  have hmax : max (1 : ℚ) (111/5) = 111/5 := max_eq_right (by norm_num)
  have hfloor : ⌊(111 : ℚ)/5⌋ = 22 := by norm_num [Int.floor_eq_iff]
  have h1 : pixelTableSizes .rectangular [111/5] = [22] := by
    simp [pixelTableSizes, pixelTableSize1, castUint, hmax, hfloor]
  have h2 : claimedOddExtent (111/5) = 23 := by
    simp [claimedOddExtent, castUint, hfloor]
  refine ⟨h1, h2, ?_⟩
  rw [h1, h2]
  decide

/-- **C3 (amended).** For `elliptic` and `diamond` every stored extent is
`(floor(max(1,size))/2)*2+1` — equal to the claimed `(floor(size)/2)*2+1`
whenever the requested size is at least 1 — and hence odd; for
`rectangular` the stored extent is `floor(max(1,size))`, which can be even.
-/
theorem pixelTableSizes_normalization (shape : UnitCircleShape)
    (size : List ℚ) (i : ℕ) (hi : i < size.length) :
    ((shape = .elliptic ∨ shape = .diamond) →
      (pixelTableSizes shape size).getD i 0
          = castUint (max 1 (size.getD i 0)) / 2 * 2 + 1 ∧
      (1 ≤ size.getD i 0 →
        (pixelTableSizes shape size).getD i 0 = claimedOddExtent (size.getD i 0)) ∧
      Odd ((pixelTableSizes shape size).getD i 0)) ∧
    (shape = .rectangular →
      (pixelTableSizes shape size).getD i 0 = castUint (max 1 (size.getD i 0))) := by
  have hmap : (pixelTableSizes shape size).getD i 0
      = pixelTableSize1 shape (size.getD i 0) := by
    unfold pixelTableSizes
    rw [List.getD_eq_getElem?_getD, List.getElem?_map,
        List.getElem?_eq_getElem hi]
    simp [List.getD_eq_getElem?_getD, List.getElem?_eq_getElem hi]
  constructor
  · rintro (rfl | rfl) <;>
    · refine ⟨by rw [hmap]; rfl, ?_, ?_⟩
      · intro h1
        rw [hmap]
        simp only [pixelTableSize1]
        unfold claimedOddExtent
        rw [max_eq_right h1]
      · rw [hmap]
        exact ⟨_, by dsimp [pixelTableSize1]; ring⟩
  · rintro rfl
    rw [hmap]
    rfl

/-- Witness for C3's amended theorem at the doctest input
`elliptic, {10.1, 12.7, 5.3}` (stored sizes `{11,13,5}`): dimension 1
stores extent 13. -/
theorem pixelTableSizes_normalization_witness :
    (1 : ℕ) < ([101/10, 127/10, 53/10] : List ℚ).length ∧
    (pixelTableSizes .elliptic [101/10, 127/10, 53/10]).getD 1 0 = 13 ∧
    Odd ((pixelTableSizes .elliptic [101/10, 127/10, 53/10]).getD 1 0) := by
  have h := pixelTableSizes_normalization .elliptic [101/10, 127/10, 53/10]
    1 (by norm_num)
  have hmax : max (1 : ℚ) (127/10) = 127/10 := max_eq_right (by norm_num)
  have hfloor : ⌊(127 : ℚ)/10⌋ = 12 := by norm_num [Int.floor_eq_iff]
  have h13 : (pixelTableSizes .elliptic [101/10, 127/10, 53/10]).getD 1 0
      = 13 := by
    have he := (h.1 (Or.inl rfl)).1
    have hget : ([101/10, 127/10, 53/10] : List ℚ).getD 1 0 = 127/10 := rfl
    rw [he, hget, castUint, hmax, hfloor]
    decide
  exact ⟨by norm_num, h13, (h.1 (Or.inl rfl)).2.2⟩

end DIP

namespace DIP

/-! ## Direct integer lookup table (src/src/lookup_table/lookup_table.cpp)

`dip__DirectLUT_Integer< TPI >::Filter` maps each unsigned-integer input
sample (brought into a `uint32` buffer) to one output pixel of
`tensorLength` samples: with `maxIndex = values_.Size( 0 ) - 1`, an input
`index > maxIndex` triggers the out-of-bounds mode (fill with the
configured value, fill with the clamp-cast input, or copy entry
`maxIndex`), otherwise entry `index` is copied.  The value table is
modelled as a list of per-pixel tensors (the code's `DIP_ASSERT` fixes each
entry's tensor length to `tensorLength`); `clamp_cast< TPI >` of the input
index is abstracted as a parameter since clamp_cast.h is not among the
inspected sources. -/

/-- `LookupTable::OutOfBoundsMode`. -/
inductive OutOfBoundsMode
  | useOOBValue
  | keepInputValue
  | clampToRange
deriving DecidableEq

/-- `FillPixel`: write one value to all `length` tensor samples. -/
def FillPixel (length : ℕ) (value : α) : List α := List.replicate length value

/-- One output pixel of `dip__DirectLUT_Integer< TPI >::Filter` for input
sample `index`. -/
def dip__DirectLUT_Integer (values : List (List α)) (oobMode : OutOfBoundsMode)
    (oobValue : α) (clampCastIndex : ℕ → α) (tensorLength : ℕ)
    (index : ℕ) : List α :=
  let maxIndex := values.length - 1
  if index > maxIndex then
    match oobMode with
    | .useOOBValue => FillPixel tensorLength oobValue
    | .keepInputValue => FillPixel tensorLength (clampCastIndex index)
    | .clampToRange => values.getD maxIndex []
  else
    values.getD index []

/-- The doctest value table: 10 entries, 3 tensor elements, per-channel
values `10..19`. -/
def lut1Table : List (List ℕ) :=
  (List.range 10).map (fun i => List.replicate 3 (10 + i))

/-- **C7.** A `LookupTable` without index applied to an unsigned-integer
image treats each input value as an exact table position: a value at most
the last position copies that entry, a larger value triggers the configured
out-of-bounds policy; in particular the 10-entry, 3-tensor-element table
with per-channel values `10..19` and fixed out-of-bounds value 255 maps
each ramp value `v < 10` to the pixel with all channels `v + 10` and each
`v ≥ 10` to all channels 255. -/
theorem directLUT_integer_exact_position (values : List (List α))
    (oobMode : OutOfBoundsMode) (oobValue : α) (clampCastIndex : ℕ → α)
    (tensorLength : ℕ) (index : ℕ) (hne : values ≠ []) :
    (index < values.length →
      dip__DirectLUT_Integer values oobMode oobValue clampCastIndex
        tensorLength index = values.getD index []) ∧
    (values.length ≤ index →
      dip__DirectLUT_Integer values oobMode oobValue clampCastIndex
        tensorLength index =
        match oobMode with
        | .useOOBValue => FillPixel tensorLength oobValue
        | .keepInputValue => FillPixel tensorLength (clampCastIndex index)
        | .clampToRange => values.getD (values.length - 1) []) ∧
    (∀ v < 15, dip__DirectLUT_Integer lut1Table .useOOBValue 255
        (fun n => min n 255) 3 v =
        if v < 10 then List.replicate 3 (v + 10) else List.replicate 3 255) := by
  have hlen : 1 ≤ values.length := by
    cases values with
    | nil => exact absurd rfl hne
    | cons a l => exact Nat.succ_le_succ (Nat.zero_le _)
  refine ⟨?_, ?_, by decide⟩
  · intro hlt
    unfold dip__DirectLUT_Integer
    rw [if_neg (by omega)]
  · intro hge
    unfold dip__DirectLUT_Integer
    rw [if_pos (by omega)]

/-- Witness for C7: table entry 4 is copied verbatim for input 4, and the
ramp values 4 and 12 give `{14,14,14}` and `{255,255,255}`. -/
theorem directLUT_integer_exact_position_witness :
    lut1Table ≠ [] ∧ (4 : ℕ) < lut1Table.length ∧ (4 : ℕ) < 15 ∧ (12 : ℕ) < 15 ∧
    dip__DirectLUT_Integer lut1Table .useOOBValue 255 (fun n => min n 255) 3 4
      = [14, 14, 14] ∧
    dip__DirectLUT_Integer lut1Table .useOOBValue 255 (fun n => min n 255) 3 12
      = [255, 255, 255] := by
  have h := directLUT_integer_exact_position lut1Table .useOOBValue
    (255 : ℕ) (fun n => min n 255) 3 4 (by decide)
  refine ⟨by decide, by decide, by decide, by decide, ?_, ?_⟩
  · rw [h.2.2 4 (by decide)]
    decide
  · rw [h.2.2 12 (by decide)]
    decide

end DIP

namespace DIP

/-! ## Polygon area / centroid (src/include/diplib/chain_code.h)

`Polygon::Area` and `Polygon::Centroid` guard `vertices.size() < 3` and
return `0` and `{0,0}` respectively (with a "Should we generate an error
instead?" comment, i.e. deliberately no exception); otherwise they run the
shoelace loop.  `ChainCode::Area` is `Polygon().Area() + 0.5`; the
chain-code → polygon derivation lives in a translation unit outside the
inspected sources, so `chainCodeArea` is parametrized by the derived
polygon.  Vertex coordinates (`dfloat`) are modelled as `ℚ`; the values the
claim is about (0, {0,0}, 0.5) are exact in `double`, so the model agrees
with the code on them. -/

/-- `VertexFloat`: a 2-D vertex with (here: rational) coordinates. -/
structure VertexFloat where
  x : ℚ
  y : ℚ
deriving DecidableEq

/-- `CrossProduct( v1, v2 ) = v1.x * v2.y - v1.y * v2.x`. -/
def CrossProduct (v1 v2 : VertexFloat) : ℚ := v1.x * v2.y - v1.y * v2.x

/-- `Polygon::Area`: 0 for fewer than 3 vertices, else half the cyclic
shoelace sum. -/
def polygonArea (vs : List VertexFloat) : ℚ :=
  if vs.length < 3 then 0
  else
    let sum := CrossProduct (vs.getLastD ⟨0, 0⟩) (vs.headD ⟨0, 0⟩) +
      (List.range (vs.length - 1)).foldl
        (fun acc i => acc + CrossProduct (vs.getD i ⟨0, 0⟩) (vs.getD (i + 1) ⟨0, 0⟩)) 0
    sum / 2

/-- `Polygon::Centroid`: `{0,0}` for fewer than 3 vertices, else the
cross-product-weighted edge-midpoint sum divided by `3 * sum`. -/
def polygonCentroid (vs : List VertexFloat) : VertexFloat :=
  if vs.length < 3 then ⟨0, 0⟩
  else
    let vlast := vs.getLastD ⟨0, 0⟩
    let v0 := vs.headD ⟨0, 0⟩
    let first := CrossProduct vlast v0
    let acc := (List.range (vs.length - 1)).foldl
      (fun (acc : ℚ × ℚ × ℚ) i =>
        let a := vs.getD i ⟨0, 0⟩
        let b := vs.getD (i + 1) ⟨0, 0⟩
        let v := CrossProduct a b
        (acc.1 + v, acc.2.1 + (a.x + b.x) * v, acc.2.2 + (a.y + b.y) * v))
      (first, (vlast.x + v0.x) * first, (vlast.y + v0.y) * first)
    ⟨acc.2.1 / (3 * acc.1), acc.2.2 / (3 * acc.1)⟩

/-- `ChainCode::Area`: the derived polygon's area plus half a pixel. -/
def chainCodeArea (derivedPolygon : List VertexFloat) : ℚ :=
  polygonArea derivedPolygon + 1/2

/-- **C10.** A polygon with fewer than 3 vertices has `Area() = 0` and
`Centroid() = (0,0)`, both returned silently (the functions are total, no
error path exists), and `ChainCode::Area`, which adds 0.5 to the derived
polygon's area, returns 0.5 whenever the derived polygon has fewer than 3
vertices. -/
theorem polygon_degenerate_silent (vs : List VertexFloat)
    (h : vs.length < 3) :
    polygonArea vs = 0 ∧
    polygonCentroid vs = ⟨0, 0⟩ ∧
    chainCodeArea vs = 1/2 := by
  refine ⟨?_, ?_, ?_⟩
  · unfold polygonArea
    rw [if_pos h]
  · unfold polygonCentroid
    rw [if_pos h]
  · unfold chainCodeArea polygonArea
    rw [if_pos h]
    norm_num

/-- Witness for C10 on the two-vertex polygon `{(0,0), (5,7)}`. -/
theorem polygon_degenerate_silent_witness :
    ([⟨0, 0⟩, ⟨5, 7⟩] : List VertexFloat).length < 3 ∧
    polygonArea [⟨0, 0⟩, ⟨5, 7⟩] = 0 ∧
    chainCodeArea [⟨0, 0⟩, ⟨5, 7⟩] = 1/2 := by
  have h := polygon_degenerate_silent [⟨0, 0⟩, ⟨5, 7⟩] (by decide)
  exact ⟨by decide, h.1, h.2.2⟩

end DIP

namespace DIP

/-! ## Interval construction (src/src/binary/sup_inf_generator.cpp)

`Interval::Interval( Image )` requires every dimension size odd
(`!(s & 1)` throws), builds `hit_ = image == 1` and `miss_ = image == 0`,
throws if `hit_` has no foreground, and strips `miss_` when it is all
background.  `Interval::Interval( Image, Image )` additionally requires
equal sizes and — when the miss image has foreground — disjointness
(`Any( Infimum( hit_, miss_ ) )` throws).  Images are modelled as a size
list plus a flat sample list (the catalogs in this file build intervals
from `uint8` data, so samples are `ℕ`); `Infimum` of binary images is the
pointwise AND.  C++ exceptions become `Except.error` carrying the message.
-/

/-- A forged scalar image: per-dimension sizes plus flat sample data. -/
structure ModelImage (α : Type) where
  sizes : List ℕ
  data : List α

/-- A constructed hit-or-miss interval; `miss = none` models the stripped
(all-background) miss image. -/
structure Interval where
  sizes : List ℕ
  hit : List Bool
  miss : Option (List Bool)

/-- `Interval::Interval( Image const& image )`. -/
def intervalFromImage (img : ModelImage ℕ) : Except String Interval :=
  if img.sizes.all (fun s => s % 2 == 1) then
    let hit := img.data.map (fun v => v == 1)
    if hit.any id then
      let miss := img.data.map (fun v => v == 0)
      if miss.any id then .ok ⟨img.sizes, hit, some miss⟩
      else .ok ⟨img.sizes, hit, none⟩
    else .error "The interval needs at least one foreground pixel"
  else .error "The interval is not odd in size"

/-- `Interval::Interval( Image hit, Image miss )`. -/
def intervalFromHitMiss (hit miss : ModelImage Bool) : Except String Interval :=
  if hit.sizes ≠ miss.sizes then .error "SIZES_DONT_MATCH"
  else if ¬ hit.sizes.all (fun s => s % 2 == 1) then
    .error "The interval is not odd in size"
  else if ¬ hit.data.any id then
    .error "The interval needs at least one foreground pixel"
  else if ¬ miss.data.any id then .ok ⟨hit.sizes, hit.data, none⟩
  else if (List.zipWith (· && ·) hit.data miss.data).any id then
    .error "The hit and miss images are not disjoint"
  else .ok ⟨hit.sizes, hit.data, some miss.data⟩

/-- **C8.** Interval construction enforces its invariants by failing and
never yields a partially valid value: an even-sized dimension fails (both
constructors), an empty foreground set fails, overlapping hit/miss sets
fail with "not disjoint"; every successfully constructed interval has
all-odd sizes, a non-empty hit set, and hit/miss disjoint. -/
theorem interval_construction_invariants :
    (∀ (img : ModelImage ℕ) (s : ℕ), s ∈ img.sizes → s % 2 = 0 →
      intervalFromImage img = .error "The interval is not odd in size") ∧
    (∀ (img : ModelImage ℕ), img.sizes.all (fun s => s % 2 == 1) = true →
      (∀ v ∈ img.data, v ≠ 1) →
      intervalFromImage img =
        .error "The interval needs at least one foreground pixel") ∧
    (∀ (hit miss : ModelImage Bool) (s : ℕ), s ∈ hit.sizes → s % 2 = 0 →
      ∀ itv, intervalFromHitMiss hit miss ≠ .ok itv) ∧
    (∀ (hit miss : ModelImage Bool) (i : ℕ), hit.sizes = miss.sizes →
      hit.data.getD i false = true → miss.data.getD i false = true →
      (∀ itv, intervalFromHitMiss hit miss ≠ .ok itv) ∧
      (hit.sizes.all (fun s => s % 2 == 1) = true →
        intervalFromHitMiss hit miss =
          .error "The hit and miss images are not disjoint")) ∧
    (∀ (img : ModelImage ℕ) itv, intervalFromImage img = .ok itv →
      itv.sizes.all (fun s => s % 2 == 1) = true ∧ itv.hit.any id = true ∧
      ∀ m, itv.miss = some m →
        (List.zipWith (· && ·) itv.hit m).any id = false) ∧
    (∀ (hit miss : ModelImage Bool) itv,
      intervalFromHitMiss hit miss = .ok itv →
      itv.sizes.all (fun s => s % 2 == 1) = true ∧ itv.hit.any id = true ∧
      ∀ m, itv.miss = some m →
        (List.zipWith (· && ·) itv.hit m).any id = false) := by
  have hodd_false : ∀ (sizes : List ℕ) (s : ℕ), s ∈ sizes → s % 2 = 0 →
      sizes.all (fun s => s % 2 == 1) = false := by
    intro sizes s hs hev
    rw [List.all_eq_false]
    exact ⟨s, hs, by simp [hev]⟩
  refine ⟨?_, ?_, ?_, ?_, ?_, ?_⟩
  · intro img s hs hev
    unfold intervalFromImage
    rw [hodd_false img.sizes s hs hev]
    rfl
  · intro img hodd hno
    have hany : (img.data.map (fun v => v == 1)).any id = false := by
      rw [List.any_eq_false]
      intro b hb
      rw [List.mem_map] at hb
      obtain ⟨v, hv, rfl⟩ := hb
      simpa using hno v hv
    unfold intervalFromImage
    rw [hodd]
    simp only [if_true]
    rw [hany]
    rfl
  · intro hit miss s hs hev itv
    unfold intervalFromHitMiss
    by_cases hsz : hit.sizes ≠ miss.sizes
    · rw [if_pos hsz]; intro h; cases h
    · rw [if_neg hsz, if_pos (by rw [hodd_false hit.sizes s hs hev]; simp)]
      intro h; cases h
  · intro hit miss i hsz hhit hmiss
    have hilt : i < hit.data.length := by
      by_contra hge
      rw [List.getD_eq_default _ _ (by omega)] at hhit
      exact Bool.false_ne_true hhit
    have hjlt : i < miss.data.length := by
      by_contra hge
      rw [List.getD_eq_default _ _ (by omega)] at hmiss
      exact Bool.false_ne_true hmiss
    have hhit' : hit.data.get ⟨i, hilt⟩ = true := by
      rw [List.getD_eq_getElem hit.data false hilt] at hhit
      rw [List.get_eq_getElem]
      exact hhit
    have hmiss' : miss.data.get ⟨i, hjlt⟩ = true := by
      rw [List.getD_eq_getElem miss.data false hjlt] at hmiss
      rw [List.get_eq_getElem]
      exact hmiss
    have hanyhit : hit.data.any id = true := by
      rw [List.any_eq_true]
      exact ⟨true, by rw [← hhit']; exact hit.data.get_mem i hilt, rfl⟩
    have hanymiss : miss.data.any id = true := by
      rw [List.any_eq_true]
      exact ⟨true, by rw [← hmiss']; exact miss.data.get_mem i hjlt, rfl⟩
    have hzip : (List.zipWith (· && ·) hit.data miss.data).any id = true := by
      rw [List.any_eq_true]
      have hlt : i < (List.zipWith (· && ·) hit.data miss.data).length := by
        rw [List.length_zipWith]; omega
      refine ⟨true, ?_, rfl⟩
      have hz : (List.zipWith (· && ·) hit.data miss.data).get ⟨i, hlt⟩
          = true := by
        rw [List.get_eq_getElem, List.getElem_zipWith]
        simp only [Fin.val_mk]
        rw [List.get_eq_getElem] at hhit' hmiss'
        rw [hhit', hmiss']
        rfl
      rw [← hz]
      exact (List.zipWith (· && ·) hit.data miss.data).get_mem i hlt
    constructor
    · intro itv
      unfold intervalFromHitMiss
      rw [if_neg (by simp [hsz])]
      by_cases hodd : hit.sizes.all (fun s => s % 2 == 1) = true
      · rw [if_neg (by simp [hodd]), if_neg (by simp [hanyhit]),
            if_neg (by simp [hanymiss]), if_pos hzip]
        intro h; cases h
      · rw [if_pos (by simpa using hodd)]
        intro h; cases h
    · intro hodd
      unfold intervalFromHitMiss
      rw [if_neg (by simp [hsz]), if_neg (by simp [hodd]),
          if_neg (by simp [hanyhit]), if_neg (by simp [hanymiss]), if_pos hzip]
  · intro img itv h
    unfold intervalFromImage at h
    by_cases hodd : img.sizes.all (fun s => s % 2 == 1) = true
    · rw [hodd] at h
      simp only [if_true] at h
      by_cases hany : (img.data.map (fun v => v == 1)).any id = true
      · rw [hany] at h
        simp only [if_true] at h
        have hdisj : (List.zipWith (· && ·) (img.data.map (fun v => v == 1))
            (img.data.map (fun v => v == 0))).any id = false := by
          rw [List.any_eq_false]
          intro b hb
          have hlen : (img.data.map (fun v => v == 1)).length
              = (img.data.map (fun v => v == 0)).length := by
            simp
          rw [List.mem_iff_getElem] at hb
          obtain ⟨j, hj, hbj⟩ := hb
          rw [List.getElem_zipWith] at hbj
          rw [List.length_zipWith] at hj
          have hj1 : j < (img.data.map (fun v => v == 1)).length := by omega
          have hj2 : j < (img.data.map (fun v => v == 0)).length := by omega
          rw [List.getElem_map] at hbj
          rw [List.getElem_map] at hbj
          subst hbj
          simp only [id, Bool.and_eq_true, beq_iff_eq]
          rintro ⟨h1, h0⟩
          rw [h1] at h0
          exact one_ne_zero h0
        split at h
        · cases h
          exact ⟨hodd, hany, by
            intro m hm
            cases hm
            exact hdisj⟩
        · cases h
          exact ⟨hodd, hany, by intro m hm; cases hm⟩
      · rw [Bool.not_eq_true] at hany
        rw [hany] at h
        cases h
    · rw [Bool.not_eq_true] at hodd
      rw [hodd] at h
      cases h
  · intro hit miss itv h
    unfold intervalFromHitMiss at h
    split at h
    · cases h
    split at h
    · cases h
    split at h
    · cases h
    split at h
    · cases h
      rename_i hsz hodd hany hmiss
      exact ⟨by simpa using hodd, by simpa using hany,
        by intro m hm; cases hm⟩
    split at h
    · cases h
    · cases h
      rename_i hsz hodd hany hmiss hdisj
      exact ⟨by simpa using hodd, by simpa using hany, by
        intro m hm
        cases hm
        simpa using hdisj⟩

/-- Witness for C8: an even-sized image fails, an all-background image
fails, an overlapping hit/miss pair fails with "not disjoint", and a valid
3-sample interval is constructed with its invariants. -/
theorem interval_construction_invariants_witness :
    ((2 : ℕ) ∈ ([2] : List ℕ) ∧ (2 : ℕ) % 2 = 0 ∧
      intervalFromImage ⟨[2], [1, 1]⟩ =
        .error "The interval is not odd in size") ∧
    (intervalFromImage ⟨[3], [0, 2, 0]⟩ =
        .error "The interval needs at least one foreground pixel") ∧
    (intervalFromHitMiss ⟨[3], [true, false, false]⟩
        ⟨[3], [true, false, true]⟩ =
      .error "The hit and miss images are not disjoint") := by
  have h := interval_construction_invariants
  refine ⟨⟨by decide, by decide, ?_⟩, ?_, ?_⟩
  · exact h.1 ⟨[2], [1, 1]⟩ 2 (by decide) (by decide)
  · exact h.2.1 ⟨[3], [0, 2, 0]⟩ (by decide) (by decide)
  · exact (h.2.2.2.1 ⟨[3], [true, false, false]⟩ ⟨[3], [true, false, true]⟩
      0 (by decide) (by decide) (by decide)).2 (by decide)

end DIP

namespace DIP

/-! ## Percentile filter (src/src/nonlinear/percentile.cpp)

`PercentileLineFilter< TPI >` stores `fraction_ = percentile / 100.0`; per
output pixel it gathers the kernel's `N` neighborhood samples into an
`N`-element scratch buffer, computes
`rank = static_cast< dip::sint >( static_cast< dfloat >( N ) * fraction_ )`
(truncation of a nonnegative product, i.e. floor), runs
`std::nth_element( begin, begin + rank, end )` and writes
`*( begin + rank )`.  `PercentileFilter` rejects `percentile` outside
`[0,100]` and weighted kernels before instantiating the line filter.  The
percentile is modelled as `ℚ`; at the inputs relevant below (`0`, `50`,
`100`) the double computation `N * (p/100.0)` is exact, so the model and
the code agree there.  After `nth_element`, `begin + rank` holds the
element that position holds in the fully sorted buffer; dereferencing
`begin + rank` is modelled as `List.get?` of the sorted gather list, so an
out-of-buffer dereference (rank ≥ N) becomes `none`. -/

/-- `fraction_ = percentile / 100.0`. -/
def percentileFraction (percentile : ℚ) : ℚ := percentile / 100

/-- `rank = (sint)((dfloat)N * fraction_)`. -/
def percentileRank (N : ℕ) (percentile : ℚ) : ℕ :=
  (⌊(N : ℚ) * percentileFraction percentile⌋).toNat

/-- The value written for one output pixel, given the gathered neighborhood
values: the element at position `rank` of the sorted scratch buffer, or
`none` if that position lies outside the buffer. -/
def percentileFilterOutput (vals : List ℚ) (percentile : ℚ) : Option ℚ :=
  (vals.insertionSort (· ≤ ·)).get? (percentileRank vals.length percentile)

/-- **C5.** At `percentile = 100` (accepted by `PercentileFilter`'s range
check) the selection rank equals `N`, which is *not* a valid index into the
`N`-element scratch buffer: with a single-pixel kernel the rank is 1 for a
1-element buffer and the dereference falls outside it. -/
theorem percentileRank_at_100_out_of_bounds :
    (0 : ℚ) ≤ 100 ∧ (100 : ℚ) ≤ 100 ∧
    percentileRank 1 100 = 1 ∧ ¬ percentileRank 1 100 < 1 ∧
    percentileFilterOutput [4] 100 = none := by
  have h1 : percentileRank 1 100 = 1 := by
    unfold percentileRank percentileFraction
    norm_num
  refine ⟨by norm_num, by norm_num, h1, by omega, ?_⟩
  unfold percentileFilterOutput
  rw [show ([4] : List ℚ).length = 1 from rfl, h1]
  rfl

/-- **C4.** At `percentile = 100` the filter does not produce the
neighborhood maximum (`Dilation`): the selected position is one past the
end of the 3-element buffer, not the maximum 7. -/
theorem percentileFilter_at_100_not_dilation :
    percentileRank 3 100 = 3 ∧
    percentileFilterOutput [2, 7, 5] 100 = none ∧
    ([2, 7, 5] : List ℚ).maximum = some 7 ∧
    (none : Option ℚ) ≠ some 7 := by
  have h3 : percentileRank 3 100 = 3 := by
    have hfl : ⌊((3 : ℕ) : ℚ) * ((100 : ℚ) / 100)⌋ = 3 := by norm_num
    unfold percentileRank percentileFraction
    rw [hfl]
    rfl
  refine ⟨h3, ?_, ?_, by simp⟩
  · unfold percentileFilterOutput
    rw [show ([2, 7, 5] : List ℚ).length = 3 from rfl, h3]
    rfl
  · rfl

/-- For every percentile strictly below 100 the rank is in bounds — the
out-of-buffer dereference happens only at the range's upper end point. -/
theorem percentileRank_lt_of_lt_100 (N : ℕ) (hN : 1 ≤ N) (p : ℚ)
    (_h0 : 0 ≤ p) (h1 : p < 100) : percentileRank N p < N := by
  unfold percentileRank percentileFraction
  have hx : (N : ℚ) * (p / 100) < N := by
    have hN0 : (0 : ℚ) < N := by positivity
    have : p / 100 < 1 := by linarith
    nlinarith
  have hfl : ⌊(N : ℚ) * (p / 100)⌋ < N := by
    rw [Int.floor_lt]
    exact_mod_cast hx
  omega

/-- Sanity: for in-range ranks the written value is the rank-th order
statistic; at `percentile = 0` it is the neighborhood minimum (the flat
erosion), and over a constant neighborhood `percentile = 50` returns the
constant. -/
theorem percentileFilter_order_statistic (vals : List ℚ) (hne : vals ≠ []) :
    (∀ p : ℚ, 0 ≤ p → p < 100 →
      ∃ m, percentileFilterOutput vals p = some m ∧ m ∈ vals) ∧
    (∃ m, percentileFilterOutput vals 0 = some m ∧ m ∈ vals ∧
      ∀ x ∈ vals, m ≤ x) ∧
    (∀ c : ℚ, (∀ x ∈ vals, x = c) → percentileFilterOutput vals 50 = some c) := by
  have hlen : 1 ≤ vals.length := List.length_pos.mpr hne
  have hslen : (vals.insertionSort (· ≤ ·)).length = vals.length :=
    List.length_insertionSort _ _
  have hperm : List.Perm (vals.insertionSort (· ≤ ·)) vals :=
    List.perm_insertionSort _ _
  refine ⟨?_, ?_, ?_⟩
  · intro p h0 h1
    have hr := percentileRank_lt_of_lt_100 vals.length hlen p h0 h1
    have hr' : percentileRank vals.length p
        < (vals.insertionSort (· ≤ ·)).length := by omega
    refine ⟨(vals.insertionSort (· ≤ ·)).get ⟨_, hr'⟩, ?_, ?_⟩
    · unfold percentileFilterOutput
      exact List.get?_eq_get hr'
    · exact hperm.mem_iff.mp (List.get_mem _ _ _)
  · have hr := percentileRank_lt_of_lt_100 vals.length hlen 0
      (le_refl 0) (by norm_num)
    have hzero : percentileRank vals.length 0 = 0 := by
      unfold percentileRank percentileFraction
      norm_num
    have hr' : 0 < (vals.insertionSort (· ≤ ·)).length := by omega
    refine ⟨(vals.insertionSort (· ≤ ·)).get ⟨0, hr'⟩, ?_, ?_, ?_⟩
    · unfold percentileFilterOutput
      rw [hzero]
      exact List.get?_eq_get hr'
    · exact hperm.mem_iff.mp (List.get_mem _ _ _)
    · intro x hx
      have hsorted : (vals.insertionSort (· ≤ ·)).Sorted (· ≤ ·) :=
        List.sorted_insertionSort _ _
      obtain ⟨j, hxj⟩ := List.mem_iff_get.mp (hperm.mem_iff.mpr hx)
      rw [← hxj]
      rcases Nat.eq_zero_or_pos j.1 with hj0 | hj0
      · exact le_of_eq (congrArg _ (Fin.ext hj0.symm))
      · exact hsorted.rel_get_of_lt (by rw [Fin.lt_def]; exact hj0)
  · intro c hc
    have hr := percentileRank_lt_of_lt_100 vals.length hlen 50
      (by norm_num) (by norm_num)
    have hr' : percentileRank vals.length 50
        < (vals.insertionSort (· ≤ ·)).length := by omega
    have hmem : (vals.insertionSort (· ≤ ·)).get ⟨_, hr'⟩ ∈ vals :=
      hperm.mem_iff.mp (List.get_mem _ _ _)
    unfold percentileFilterOutput
    rw [List.get?_eq_get hr', hc _ hmem]

end DIP

namespace DIP

/-! ## Binary propagation (src/src/binary/binary_propagation.cpp)

`BinaryPropagation` tags each sample of the output plane with three status
bits — data/seed (bit 0, initialized from the seed image or cleared),
border (bit 2) and mask (bit 3, set where the mask image is true) — then:

  * replaces `iterations == 0` by `std::numeric_limits< dip::uint >::max()`
    (line 78–79);
  * seeds a queue of edge pixels (`FindBinaryEdgePixels`, a helper outside
    the inspected sources, abstracted here as the initial queue contents);
  * first iteration (lines 126–140, run when `iterations > 0`): each queued
    pixel that is masked-but-not-seeded becomes seeded and is re-enqueued;
  * iterations `1 ≤ iDilIter < iterations` (lines 146–186): process the
    queue's current elements; each valid neighbor (parity-selected offset
    table plus the border bounds check, abstracted as `neigh parity p`)
    that is masked-but-not-seeded becomes seeded and is enqueued; break
    when the queue is empty after a pass;
  * final step (lines 188–195): every sample becomes
    `(pixelByte & (seed|mask)) == (seed|mask)`, i.e. masked AND seeded.

Pixels are `Fin n`; the propagation state is the seeded flags plus the
queue. -/

/-- Seeded flags and pixel queue of the propagation. -/
abbrev PropState (n : ℕ) := (Fin n → Bool) × List (Fin n)

/-- Process one candidate pixel: if it is masked-but-not-seeded, seed it
and push it to the back of the queue (the shared body of the first
iteration and of the neighbor propagation). -/
def seedStep (masked : Fin n → Bool) (a : PropState n) (q : Fin n) :
    PropState n :=
  if masked q && !(a.1 q) then (Function.update a.1 q true, a.2 ++ [q]) else a

/-- Process a list of candidate pixels in order. -/
def seedFold (masked : Fin n → Bool) (l : List (Fin n)) (sa : PropState n) :
    PropState n :=
  l.foldl (seedStep masked) sa

/-- First iteration (lines 126–140): the queued pixels themselves are the
candidates; all original entries are popped, the re-pushed ones remain. -/
def firstPass (masked : Fin n → Bool) (st : PropState n) : PropState n :=
  seedFold masked st.2 (st.1, [])

/-- One dilation iteration (body of lines 146–186): for each of the
queue's current elements, all its valid neighbors are candidates; the
processed elements are popped, newly seeded neighbors remain enqueued. -/
def dilationPass (neighbors : Fin n → List (Fin n))
    (masked : Fin n → Bool) (st : PropState n) : PropState n :=
  st.2.foldl (fun a p => seedFold masked (neighbors p) a) (st.1, [])

/-- The `for( iDilIter = 1; iDilIter < iterations; ... )` loop: `rem` is
the number of remaining iterations, the offset table alternates with the
parity of `iDilIter`, and the loop breaks once a pass leaves the queue
empty. -/
def propagationLoop (neigh : ℕ → Fin n → List (Fin n))
    (masked : Fin n → Bool) : ℕ → ℕ → PropState n → PropState n
  | _, 0, st => st
  | iDil, rem + 1, st =>
    let st' := dilationPass (neigh (iDil % 2)) masked st
    if st'.2.isEmpty then st'
    else propagationLoop neigh masked (iDil + 1) rem st'

/-- `std::numeric_limits< dip::uint >::max()`. -/
def dipUintMax : ℕ := 2 ^ 64 - 1

/-- State when the propagation finishes (before the final bit-combining
step): zero iterations are replaced by the maximal count, then the first
pass runs (iterations > 0) followed by the remaining `iterations - 1`
dilation iterations. -/
def binaryPropagationFlags (masked seeded₀ : Fin n → Bool)
    (initQueue : List (Fin n)) (neigh : ℕ → Fin n → List (Fin n))
    (iterations : ℕ) : PropState n :=
  let iters := if iterations = 0 then dipUintMax else iterations
  let st1 := if 0 < iters then firstPass masked (seeded₀, initQueue)
             else (seeded₀, initQueue)
  propagationLoop neigh masked 1 (iters - 1) st1

/-- `BinaryPropagation`'s output plane: the final step keeps exactly the
pixels whose byte has both the seed bit and the mask bit. -/
def binaryPropagation (masked seeded₀ : Fin n → Bool)
    (initQueue : List (Fin n)) (neigh : ℕ → Fin n → List (Fin n))
    (iterations : ℕ) : Fin n → Bool :=
  fun p => masked p &&
    (binaryPropagationFlags masked seeded₀ initQueue neigh iterations).1 p

/-- Number of seeded pixels. -/
def seededCount (s : Fin n → Bool) : ℕ :=
  (Finset.univ.filter (fun p => s p = true)).card

theorem seededCount_le (s : Fin n → Bool) : seededCount s ≤ n := by
  unfold seededCount
  calc (Finset.univ.filter (fun p => s p = true)).card
      ≤ Finset.univ.card := Finset.card_filter_le _ _
  _ = n := by simp

theorem seededCount_update {s : Fin n → Bool} {q : Fin n}
    (h : s q = false) :
    seededCount (Function.update s q true) = seededCount s + 1 := by
  unfold seededCount
  have hset : Finset.univ.filter (fun p => Function.update s q true p = true)
      = insert q (Finset.univ.filter (fun p => s p = true)) := by
    ext p
    by_cases hpq : p = q
    · subst hpq
      simp [Function.update_same, h]
    · simp [Function.update_noteq hpq, hpq]
  rw [hset, Finset.card_insert_of_not_mem (by simp [h])]

theorem seedStep_mono {masked : Fin n → Bool} {a : PropState n}
    {q p : Fin n} (hp : a.1 p = true) :
    (seedStep masked a q).1 p = true := by
  unfold seedStep
  split
  · show Function.update a.1 q true p = true
    by_cases hpq : p = q
    · subst hpq
      exact Function.update_same _ _ _
    · rw [Function.update_noteq hpq]
      exact hp
  · exact hp

theorem seedFold_mono {masked : Fin n → Bool} {l : List (Fin n)}
    {sa : PropState n} {p : Fin n} (hp : sa.1 p = true) :
    (seedFold masked l sa).1 p = true := by
  induction l generalizing sa with
  | nil => exact hp
  | cons q l ih => exact ih (seedStep_mono hp)

theorem seedStep_count (masked : Fin n → Bool) (a : PropState n) (q : Fin n) :
    (seedStep masked a q).2.length + seededCount a.1
      = a.2.length + seededCount (seedStep masked a q).1 := by
  unfold seedStep
  split
  · rename_i h
    have hq : a.1 q = false := by
      rcases Bool.and_eq_true _ _ |>.mp h with ⟨_, h2⟩
      simpa using h2
    simp only [seededCount_update hq, List.length_append, List.length_cons,
      List.length_nil]
    omega
  · rfl

theorem seedFold_count (masked : Fin n → Bool) (l : List (Fin n))
    (sa : PropState n) :
    (seedFold masked l sa).2.length + seededCount sa.1
      = sa.2.length + seededCount (seedFold masked l sa).1 := by
  induction l generalizing sa with
  | nil => rfl
  | cons q l ih =>
    have h1 := seedStep_count masked sa q
    have h2 := ih (seedStep masked sa q)
    show (seedFold masked l (seedStep masked sa q)).2.length + _
        = _ + seededCount (seedFold masked l (seedStep masked sa q)).1
    omega

theorem passFold_count (masked : Fin n → Bool)
    (nb : Fin n → List (Fin n)) (ps : List (Fin n)) (sa : PropState n) :
    (ps.foldl (fun a p => seedFold masked (nb p) a) sa).2.length
        + seededCount sa.1
      = sa.2.length
        + seededCount (ps.foldl (fun a p => seedFold masked (nb p) a) sa).1 := by
  induction ps generalizing sa with
  | nil => rfl
  | cons p ps ih =>
    have h1 := seedFold_count masked (nb p) sa
    have h2 := ih (seedFold masked (nb p) sa)
    show (ps.foldl _ (seedFold masked (nb p) sa)).2.length + _
        = _ + seededCount (ps.foldl _ (seedFold masked (nb p) sa)).1
    omega

theorem dilationPass_count (nb : Fin n → List (Fin n))
    (masked : Fin n → Bool) (st : PropState n) :
    (dilationPass nb masked st).2.length + seededCount st.1
      = seededCount (dilationPass nb masked st).1 := by
  have h := passFold_count masked nb st.2 (st.1, [])
  simpa using h

theorem dilationPass_of_empty (nb : Fin n → List (Fin n))
    (masked : Fin n → Bool) {st : PropState n} (h : st.2 = []) :
    dilationPass nb masked st = st := by
  obtain ⟨s, queue⟩ := st
  simp only at h
  subst h
  rfl

theorem propagationLoop_empty_of_fuel (neigh : ℕ → Fin n → List (Fin n))
    (masked : Fin n → Bool) (rem : ℕ) :
    ∀ (iDil : ℕ) (st : PropState n),
    n + 1 - seededCount st.1 ≤ rem →
    (propagationLoop neigh masked iDil rem st).2 = [] := by
  induction rem with
  | zero =>
    intro iDil st h
    have := seededCount_le st.1
    omega
  | succ r ih =>
    intro iDil st h
    show (if (dilationPass (neigh (iDil % 2)) masked st).2.isEmpty
        then (dilationPass (neigh (iDil % 2)) masked st)
        else propagationLoop neigh masked (iDil + 1) r
          (dilationPass (neigh (iDil % 2)) masked st)).2 = []
    by_cases hemp : (dilationPass (neigh (iDil % 2)) masked st).2.isEmpty
    · rw [if_pos hemp]
      exact List.isEmpty_iff.mp hemp
    · rw [if_neg hemp]
      apply ih
      have hne : (dilationPass (neigh (iDil % 2)) masked st).2 ≠ [] := by
        intro hq
        exact hemp (by rw [hq]; rfl)
      have hlen : 1 ≤ (dilationPass (neigh (iDil % 2)) masked st).2.length :=
        Nat.one_le_iff_ne_zero.mpr
          (fun h0 => hne (List.length_eq_zero.mp h0))
      have hcount := dilationPass_count (neigh (iDil % 2)) masked st
      omega

theorem propagationLoop_add_fuel (neigh : ℕ → Fin n → List (Fin n))
    (masked : Fin n → Bool) (rem : ℕ) :
    ∀ (iDil : ℕ) (st : PropState n),
    (propagationLoop neigh masked iDil rem st).2 = [] →
    ∀ k, propagationLoop neigh masked iDil (rem + k) st
      = propagationLoop neigh masked iDil rem st := by
  induction rem with
  | zero =>
    intro iDil st h k
    have h' : st.2 = [] := h
    cases k with
    | zero => rfl
    | succ j =>
      show (if (dilationPass (neigh (iDil % 2)) masked st).2.isEmpty
          then _ else _) = st
      rw [dilationPass_of_empty _ _ h']
      rw [if_pos (by rw [h']; rfl)]
  | succ r ih =>
    intro iDil st h k
    have hs : r + 1 + k = (r + k) + 1 := by omega
    rw [hs]
    show (if (dilationPass (neigh (iDil % 2)) masked st).2.isEmpty
        then _ else propagationLoop neigh masked (iDil + 1) (r + k)
          (dilationPass (neigh (iDil % 2)) masked st))
      = propagationLoop neigh masked iDil (r + 1) st
    show _ = (if (dilationPass (neigh (iDil % 2)) masked st).2.isEmpty
        then _ else propagationLoop neigh masked (iDil + 1) r
          (dilationPass (neigh (iDil % 2)) masked st))
    by_cases hemp : (dilationPass (neigh (iDil % 2)) masked st).2.isEmpty
    · rw [if_pos hemp, if_pos hemp]
    · rw [if_neg hemp, if_neg hemp]
      apply ih
      have hh := h
      show (propagationLoop neigh masked (iDil + 1) r
        (dilationPass (neigh (iDil % 2)) masked st)).2 = []
      have : propagationLoop neigh masked iDil (r + 1) st
          = propagationLoop neigh masked (iDil + 1) r
            (dilationPass (neigh (iDil % 2)) masked st) := by
        show (if (dilationPass (neigh (iDil % 2)) masked st).2.isEmpty
            then _ else _) = _
        rw [if_neg hemp]
      rw [← this]
      exact hh

/-- **C2.** With `iterations == 0` (and an image small enough that the
substituted maximal iteration count cannot be exhausted, as on real
hardware), `BinaryPropagation` iterates until no pixel changes: the final
queue is empty, one further dilation iteration with any neighbor table
leaves the state unchanged, and any extra iteration budget beyond the
substituted `dip::uint` maximum produces the same state (the count is
effectively unbounded); and every sample of the output is true iff that
pixel ends the procedure carrying both the mask flag and the seed flag. -/
theorem binaryPropagation_converges (n : ℕ) (hn : n + 2 ≤ dipUintMax)
    (masked seeded₀ : Fin n → Bool) (initQueue : List (Fin n))
    (neigh : ℕ → Fin n → List (Fin n)) :
    (binaryPropagationFlags masked seeded₀ initQueue neigh 0).2 = [] ∧
    (∀ nb : Fin n → List (Fin n),
      dilationPass nb masked
          (binaryPropagationFlags masked seeded₀ initQueue neigh 0)
        = binaryPropagationFlags masked seeded₀ initQueue neigh 0) ∧
    (∀ k : ℕ, propagationLoop neigh masked 1 (dipUintMax - 1 + k)
        (firstPass masked (seeded₀, initQueue))
      = binaryPropagationFlags masked seeded₀ initQueue neigh 0) ∧
    (∀ p, binaryPropagation masked seeded₀ initQueue neigh 0 p
      = (masked p &&
          (binaryPropagationFlags masked seeded₀ initQueue neigh 0).1 p)) := by
  have hpos : (0 < dipUintMax) = True :=
    eq_true (show 0 < dipUintMax by unfold dipUintMax; norm_num)
  have hflags : binaryPropagationFlags masked seeded₀ initQueue neigh 0
      = propagationLoop neigh masked 1 (dipUintMax - 1)
          (firstPass masked (seeded₀, initQueue)) := by
    unfold binaryPropagationFlags
    simp only [if_pos rfl, hpos, if_true]
  have hempty : (binaryPropagationFlags masked seeded₀ initQueue neigh 0).2
      = [] := by
    rw [hflags]
    apply propagationLoop_empty_of_fuel
    have := seededCount_le (firstPass masked (seeded₀, initQueue)).1
    omega
  refine ⟨hempty, ?_, ?_, ?_⟩
  · intro nb
    exact dilationPass_of_empty nb masked hempty
  · intro k
    rw [hflags]
    apply propagationLoop_add_fuel
    rw [← hflags]
    exact hempty
  · intro p
    rfl

/-- Witness for C2 on a 2-pixel image: both pixels masked, pixel 0 seeded,
pixel 1 reachable from pixel 0. -/
theorem binaryPropagation_converges_witness :
    2 + 2 ≤ dipUintMax ∧
    (binaryPropagationFlags (n := 2) (fun _ => true)
        (fun p => decide (p.val = 0)) [⟨0, by omega⟩]
        (fun _ p => [⟨1 - p.val % 2, by omega⟩]) 0).2 = [] := by
  refine ⟨by unfold dipUintMax; norm_num, ?_⟩
  exact (binaryPropagation_converges 2 (by unfold dipUintMax; norm_num)
    (fun _ => true) (fun p => decide (p.val = 0)) [⟨0, by omega⟩]
    (fun _ p => [⟨1 - p.val % 2, by omega⟩])).1

end DIP

namespace DIP

/-! ## 45° ring rotation (src/src/binary/sup_inf_generator.cpp)

`RotateBy45Degrees` copies (or pads) its 2-D binary input to a square
`len × len` image with normal strides (`stepX = 1`, `stepY = len`), then for
each square shell `0 ≤ shell < len/2` with half-edge `n = len/2 - shell`
and for every `0 ≤ ii < n` performs a straight-line sequence of nine
pointer assignments (lines 88–98) that cycles eight boundary samples of
the shell.  The image buffer is modelled as a flat `List Bool` with reads
`rd` (`getD`, out-of-range reads yield `false`) and writes `wr`
(`List.set`, out-of-range writes are dropped); in the C++ code an
out-of-range access is undefined behavior, which for *even* `len` the
pointer arithmetic commits (shell 0 addresses coordinate `2·(len/2) = len`,
one past the last row/column — e.g. offset `2·stepY = 4` in the 4-sample
buffer of a 2×2 image).  `RotateBy45Degrees` is only ever called on
interval images, whose sizes are odd by the `Interval` invariant. -/

/-- Read one sample of the flat buffer (`*ptr`). -/
def rd (b : List Bool) (o : ℕ) : Bool := b.getD o false

/-- Write one sample of the flat buffer (`*ptr = v`). -/
def wr (b : List Bool) (o : ℕ) (v : Bool) : List Bool := b.set o v

/-- Lines 88–98 of `RotateBy45Degrees`: save `*ptr1`, walk the eight
octant positions copying each one's successor into it, and store the saved
value into the last.  Each read happens on the buffer as already modified
by the preceding assignments, exactly as in the source. -/
def seqShift8 (b : List Bool) (o0 o1 o2 o3 o4 o5 o6 o7 : ℕ) : List Bool :=
  let value := rd b o0
  let b1 := wr b o0 (rd b o1)
  let b2 := wr b1 o1 (rd b1 o2)
  let b3 := wr b2 o2 (rd b2 o3)
  let b4 := wr b3 o3 (rd b3 o4)
  let b5 := wr b4 o4 (rd b4 o5)
  let b6 := wr b5 o5 (rd b5 o6)
  let b7 := wr b6 o6 (rd b6 o7)
  wr b7 o7 value

/-- `RotateBy45Degrees` on a square `len × len` binary image: the shell
loop (line 79) with `ptr` advanced by `stepX + stepY` per shell (so the
base offset of shell `s` is `s + s·len`), and the inner `ii` loop
(lines 85–99) whose eight pointer offsets are transcribed literally
(`stepX = 1`, `stepY = len`). -/
def rotateBy45 (len : ℕ) (buf : List Bool) : List Bool :=
  (List.range (len / 2)).foldl (fun b s =>
    let base := s + s * len
    let n := len / 2 - s
    (List.range n).foldl (fun b2 ii =>
      seqShift8 b2
        (base + ii)
        (base + (n - ii) * len)
        (base + (2 * n - ii) * len)
        (base + (n - ii) + 2 * n * len)
        (base + (2 * n - ii) + 2 * n * len)
        (base + 2 * n + (n + ii) * len)
        (base + 2 * n + ii * len)
        (base + (n + ii))) b) buf

theorem wr_length (b : List Bool) (o : ℕ) (v : Bool) :
    (wr b o v).length = b.length := List.length_set b o v

theorem rd_wr_eq {b : List Bool} {o : ℕ} (v : Bool) (h : o < b.length) :
    rd (wr b o v) o = v := by
  unfold rd wr
  rw [List.getD_eq_getElem _ _ (by rw [List.length_set]; exact h)]
  exact List.getElem_set_self _

theorem rd_wr_ne {o o' : ℕ} (b : List Bool) (v : Bool) (h : o ≠ o') :
    rd (wr b o' v) o = rd b o := by
  unfold rd wr
  rw [List.getD_eq_getElem?_getD, List.getD_eq_getElem?_getD,
    List.getElem?_set_ne (by omega)]

theorem ext_rd {l1 l2 : List Bool} (hl : l1.length = l2.length)
    (h : ∀ o, rd l1 o = rd l2 o) : l1 = l2 := by
  apply List.ext_getElem hl
  intro i h1 h2
  have hi := h i
  unfold rd at hi
  rwa [List.getD_eq_getElem _ _ h1, List.getD_eq_getElem _ _ h2] at hi

theorem seqShift8_length (b : List Bool) (o0 o1 o2 o3 o4 o5 o6 o7 : ℕ) :
    (seqShift8 b o0 o1 o2 o3 o4 o5 o6 o7).length = b.length := by
  unfold seqShift8
  simp only [wr_length]

theorem seqShift8_rd_off {b : List Bool} {o0 o1 o2 o3 o4 o5 o6 o7 o : ℕ}
    (h0 : o ≠ o0) (h1 : o ≠ o1) (h2 : o ≠ o2) (h3 : o ≠ o3) (h4 : o ≠ o4)
    (h5 : o ≠ o5) (h6 : o ≠ o6) (h7 : o ≠ o7) :
    rd (seqShift8 b o0 o1 o2 o3 o4 o5 o6 o7) o = rd b o := by
  unfold seqShift8
  rw [rd_wr_ne _ _ h7, rd_wr_ne _ _ h6, rd_wr_ne _ _ h5, rd_wr_ne _ _ h4,
    rd_wr_ne _ _ h3, rd_wr_ne _ _ h2, rd_wr_ne _ _ h1, rd_wr_ne _ _ h0]

end DIP

namespace DIP

/-- The nine assignments cycle the eight samples: position `k` receives
the old value of position `k+1` (mod 8), provided the eight offsets are
distinct and inside the buffer. -/
theorem seqShift8_cycle (b : List Bool) (o0 o1 o2 o3 o4 o5 o6 o7 : ℕ)
    (h01 : o0 ≠ o1) (h02 : o0 ≠ o2) (h03 : o0 ≠ o3) (h04 : o0 ≠ o4)
    (h05 : o0 ≠ o5) (h06 : o0 ≠ o6) (h07 : o0 ≠ o7) (h12 : o1 ≠ o2)
    (h13 : o1 ≠ o3) (h14 : o1 ≠ o4) (h15 : o1 ≠ o5) (h16 : o1 ≠ o6)
    (h17 : o1 ≠ o7) (h23 : o2 ≠ o3) (h24 : o2 ≠ o4) (h25 : o2 ≠ o5)
    (h26 : o2 ≠ o6) (h27 : o2 ≠ o7) (h34 : o3 ≠ o4) (h35 : o3 ≠ o5)
    (h36 : o3 ≠ o6) (h37 : o3 ≠ o7) (h45 : o4 ≠ o5) (h46 : o4 ≠ o6)
    (h47 : o4 ≠ o7) (h56 : o5 ≠ o6) (h57 : o5 ≠ o7) (h67 : o6 ≠ o7)
    (hb0 : o0 < b.length) (hb1 : o1 < b.length) (hb2 : o2 < b.length) (hb3 : o3 < b.length)
    (hb4 : o4 < b.length) (hb5 : o5 < b.length) (hb6 : o6 < b.length) (hb7 : o7 < b.length)
    :
    rd (seqShift8 b o0 o1 o2 o3 o4 o5 o6 o7) o0 = rd b o1 ∧
    rd (seqShift8 b o0 o1 o2 o3 o4 o5 o6 o7) o1 = rd b o2 ∧
    rd (seqShift8 b o0 o1 o2 o3 o4 o5 o6 o7) o2 = rd b o3 ∧
    rd (seqShift8 b o0 o1 o2 o3 o4 o5 o6 o7) o3 = rd b o4 ∧
    rd (seqShift8 b o0 o1 o2 o3 o4 o5 o6 o7) o4 = rd b o5 ∧
    rd (seqShift8 b o0 o1 o2 o3 o4 o5 o6 o7) o5 = rd b o6 ∧
    rd (seqShift8 b o0 o1 o2 o3 o4 o5 o6 o7) o6 = rd b o7 ∧
    rd (seqShift8 b o0 o1 o2 o3 o4 o5 o6 o7) o7 = rd b o0 := by
  refine ⟨?_, ?_, ?_, ?_, ?_, ?_, ?_, ?_⟩
  · simp only [seqShift8]
    rw [rd_wr_ne _ _ h07, rd_wr_ne _ _ h06, rd_wr_ne _ _ h05, rd_wr_ne _ _ h04, rd_wr_ne _ _ h03, rd_wr_ne _ _ h02, rd_wr_ne _ _ h01]
    rw [rd_wr_eq _ hb0]
  · simp only [seqShift8]
    rw [rd_wr_ne _ _ h17, rd_wr_ne _ _ h16, rd_wr_ne _ _ h15, rd_wr_ne _ _ h14, rd_wr_ne _ _ h13, rd_wr_ne _ _ h12]
    rw [rd_wr_eq _ (by simp only [wr_length]; exact hb1)]
    rw [rd_wr_ne _ _ (Ne.symm h02)]
  · simp only [seqShift8]
    rw [rd_wr_ne _ _ h27, rd_wr_ne _ _ h26, rd_wr_ne _ _ h25, rd_wr_ne _ _ h24, rd_wr_ne _ _ h23]
    rw [rd_wr_eq _ (by simp only [wr_length]; exact hb2)]
    rw [rd_wr_ne _ _ (Ne.symm h13), rd_wr_ne _ _ (Ne.symm h03)]
  · simp only [seqShift8]
    rw [rd_wr_ne _ _ h37, rd_wr_ne _ _ h36, rd_wr_ne _ _ h35, rd_wr_ne _ _ h34]
    rw [rd_wr_eq _ (by simp only [wr_length]; exact hb3)]
    rw [rd_wr_ne _ _ (Ne.symm h24), rd_wr_ne _ _ (Ne.symm h14), rd_wr_ne _ _ (Ne.symm h04)]
  · simp only [seqShift8]
    rw [rd_wr_ne _ _ h47, rd_wr_ne _ _ h46, rd_wr_ne _ _ h45]
    rw [rd_wr_eq _ (by simp only [wr_length]; exact hb4)]
    rw [rd_wr_ne _ _ (Ne.symm h35), rd_wr_ne _ _ (Ne.symm h25), rd_wr_ne _ _ (Ne.symm h15), rd_wr_ne _ _ (Ne.symm h05)]
  · simp only [seqShift8]
    rw [rd_wr_ne _ _ h57, rd_wr_ne _ _ h56]
    rw [rd_wr_eq _ (by simp only [wr_length]; exact hb5)]
    rw [rd_wr_ne _ _ (Ne.symm h46), rd_wr_ne _ _ (Ne.symm h36), rd_wr_ne _ _ (Ne.symm h26), rd_wr_ne _ _ (Ne.symm h16), rd_wr_ne _ _ (Ne.symm h06)]
  · simp only [seqShift8]
    rw [rd_wr_ne _ _ h67]
    rw [rd_wr_eq _ (by simp only [wr_length]; exact hb6)]
    rw [rd_wr_ne _ _ (Ne.symm h57), rd_wr_ne _ _ (Ne.symm h47), rd_wr_ne _ _ (Ne.symm h37), rd_wr_ne _ _ (Ne.symm h27), rd_wr_ne _ _ (Ne.symm h17), rd_wr_ne _ _ (Ne.symm h07)]
  · simp only [seqShift8]
    rw [rd_wr_eq _ (by simp only [wr_length]; exact hb7)]

end DIP

namespace DIP

/-- The eight pointer offsets of the shell-`s`, index-`ii` assignment chain
of `RotateBy45Degrees`, transcribed from the source (`stepX = 1`,
`stepY = len`, base pointer at coordinate `(s, s)`); the slot index `k`
names the position in the nine-assignment sequence. -/
def chainOff (len s ii : ℕ) (k : Fin 8) : ℕ :=
  let base := s + s * len
  let n := len / 2 - s
  match k.val with
  | 0 => base + ii
  | 1 => base + (n - ii) * len
  | 2 => base + (2 * n - ii) * len
  | 3 => base + (n - ii) + 2 * n * len
  | 4 => base + (2 * n - ii) + 2 * n * len
  | 5 => base + 2 * n + (n + ii) * len
  | 6 => base + 2 * n + ii * len
  | _ => base + (n + ii)

/-- One chain of nine assignments as a buffer transformation. -/
def chainApp (len s ii : ℕ) (b : List Bool) : List Bool :=
  seqShift8 b (chainOff len s ii 0) (chainOff len s ii 1) (chainOff len s ii 2)
    (chainOff len s ii 3) (chainOff len s ii 4) (chainOff len s ii 5)
    (chainOff len s ii 6) (chainOff len s ii 7)

/-- All (shell, index) chain pairs, in the order the two nested loops of
`RotateBy45Degrees` visit them. -/
def chainList (len : ℕ) : List (ℕ × ℕ) :=
  (List.range (len / 2)).flatMap
    (fun s => (List.range (len / 2 - s)).map (fun ii => (s, ii)))

/-- Folding over a flattened list equals the nested fold. -/
theorem foldl_flatMap_eq {α β γ : Type} (l : List α) (g : α → List β)
    (f : γ → β → γ) (init : γ) :
    (l.flatMap g).foldl f init
      = l.foldl (fun c a => (g a).foldl f c) init := by
  induction l generalizing init with
  | nil => rfl
  | cons a l ih =>
    rw [List.flatMap_cons, List.foldl_append, ih]
    rfl

/-- `RotateBy45Degrees` is the fold of its assignment chains in loop
order. -/
theorem rotate_eq_chainFold (len : ℕ) (buf : List Bool) :
    rotateBy45 len buf
      = (chainList len).foldl (fun b p => chainApp len p.1 p.2 b) buf := by
  unfold chainList
  rw [foldl_flatMap_eq]
  simp only [List.foldl_map]
  rfl

/-- Coordinates `(x, y)` of the eight octant samples of chain
`(s, ii)` (`m = len / 2`, half-edge `n = m - s`). -/
def chainCoord (m s ii : ℕ) (k : Fin 8) : ℕ × ℕ :=
  let n := m - s
  match k.val with
  | 0 => (s + ii, s)
  | 1 => (s, s + (n - ii))
  | 2 => (s, s + (2 * n - ii))
  | 3 => (s + (n - ii), s + 2 * n)
  | 4 => (s + (2 * n - ii), s + 2 * n)
  | 5 => (s + 2 * n, s + n + ii)
  | 6 => (s + 2 * n, s + ii)
  | _ => (s + n + ii, s)

/-- The chain validity conditions: odd image side, shell inside the
image, index inside the half-edge. -/
def ChainValid (len s ii : ℕ) : Prop :=
  len % 2 = 1 ∧ s < len / 2 ∧ ii < len / 2 - s

theorem chainOff_eq_coord (len s ii : ℕ) (k : Fin 8) :
    chainOff len s ii k
      = (chainCoord (len / 2) s ii k).1
        + (chainCoord (len / 2) s ii k).2 * len := by
  fin_cases k <;> simp only [chainOff, chainCoord] <;> ring_nf

theorem chainCoord_le {len s ii : ℕ} (h : ChainValid len s ii) (k : Fin 8) :
    (chainCoord (len / 2) s ii k).1 ≤ 2 * (len / 2) ∧
    (chainCoord (len / 2) s ii k).2 ≤ 2 * (len / 2) := by
  obtain ⟨hodd, hs, hii⟩ := h
  fin_cases k <;> refine ⟨?_, ?_⟩ <;> simp only [chainCoord] <;> omega

/-- Which shell a coordinate pair lies on: its Chebyshev distance to the
nearest image edge. -/
def ringIndex (m : ℕ) (c : ℕ × ℕ) : ℕ :=
  min (min c.1 c.2) (min (2 * m - c.1) (2 * m - c.2))

theorem ringIndex_chainCoord {len s ii : ℕ} (h : ChainValid len s ii)
    (k : Fin 8) : ringIndex (len / 2) (chainCoord (len / 2) s ii k) = s := by
  obtain ⟨hodd, hs, hii⟩ := h
  fin_cases k <;> simp only [chainCoord, ringIndex] <;> omega

/-- Joint injectivity: a ring sample determines its shell, chain index and
octant slot. -/
theorem chainCoord_inj {len s ii s' ii' : ℕ} (h : ChainValid len s ii)
    (h' : ChainValid len s' ii') {k k' : Fin 8}
    (heq : chainCoord (len / 2) s ii k = chainCoord (len / 2) s' ii' k') :
    s = s' ∧ ii = ii' ∧ k = k' := by
  have h1 := ringIndex_chainCoord h k
  have h2 := ringIndex_chainCoord h' k'
  rw [heq, h2] at h1
  subst h1
  obtain ⟨hodd, hs, hii⟩ := h
  obtain ⟨_, _, hii'⟩ := h'
  refine ⟨rfl, ?_⟩
  fin_cases k <;> fin_cases k' <;>
    (refine ⟨?_, ?_⟩) <;>
    simp only [chainCoord, Prod.mk.injEq, Fin.mk.injEq] at heq ⊢ <;>
    omega

theorem chainOff_inj {len s ii s' ii' : ℕ} (h : ChainValid len s ii)
    (h' : ChainValid len s' ii') {k k' : Fin 8}
    (heq : chainOff len s ii k = chainOff len s' ii' k') :
    s = s' ∧ ii = ii' ∧ k = k' := by
  have hlen : 0 < len := by
    obtain ⟨hodd, _, _⟩ := h
    omega
  have hm : 2 * (len / 2) < len := by
    obtain ⟨hodd, _, _⟩ := h
    omega
  rw [chainOff_eq_coord, chainOff_eq_coord] at heq
  obtain ⟨hx, hy⟩ := chainCoord_le h k
  obtain ⟨hx', hy'⟩ := chainCoord_le h' k'
  apply chainCoord_inj h h'
  have hxx : (chainCoord (len / 2) s ii k).1
      = (chainCoord (len / 2) s' ii' k').1 := by
    have e1 := congrArg (· % len) heq
    simpa [Nat.add_mul_mod_self_right,
      Nat.mod_eq_of_lt (show (chainCoord (len / 2) s ii k).1 < len by omega),
      Nat.mod_eq_of_lt (show (chainCoord (len / 2) s' ii' k').1 < len by omega)]
      using e1
  have hyy : (chainCoord (len / 2) s ii k).2
      = (chainCoord (len / 2) s' ii' k').2 := by
    have e2 := congrArg (· / len) heq
    simpa [Nat.add_mul_div_right _ _ hlen,
      Nat.div_eq_of_lt (show (chainCoord (len / 2) s ii k).1 < len by omega),
      Nat.div_eq_of_lt (show (chainCoord (len / 2) s' ii' k').1 < len by omega)]
      using e2
  exact Prod.ext hxx hyy

theorem chainOff_lt {len s ii : ℕ} (h : ChainValid len s ii) (k : Fin 8) :
    chainOff len s ii k < len * len := by
  have hm : 2 * (len / 2) < len := by
    obtain ⟨hodd, _, _⟩ := h
    omega
  rw [chainOff_eq_coord]
  obtain ⟨hx, hy⟩ := chainCoord_le h k
  have hy1 : (chainCoord (len / 2) s ii k).2 < len := by omega
  calc (chainCoord (len / 2) s ii k).1 + (chainCoord (len / 2) s ii k).2 * len
      < len + (chainCoord (len / 2) s ii k).2 * len := by omega
  _ = ((chainCoord (len / 2) s ii k).2 + 1) * len := by ring
  _ ≤ len * len := Nat.mul_le_mul_right len (by omega)

end DIP

namespace DIP

theorem chainApp_length (len s ii : ℕ) (b : List Bool) :
    (chainApp len s ii b).length = b.length := seqShift8_length b _ _ _ _ _ _ _ _

theorem chainApp_rd_off {len s ii : ℕ} {b : List Bool} {o : ℕ}
    (hoff : ∀ k : Fin 8, o ≠ chainOff len s ii k) :
    rd (chainApp len s ii b) o = rd b o :=
  seqShift8_rd_off (hoff 0) (hoff 1) (hoff 2) (hoff 3) (hoff 4) (hoff 5)
    (hoff 6) (hoff 7)

theorem chainApp_cycle {len s ii : ℕ} (h : ChainValid len s ii)
    {b : List Bool} (hb : b.length = len * len) (k : Fin 8) :
    rd (chainApp len s ii b) (chainOff len s ii k)
      = rd b (chainOff len s ii (k + 1)) := by
  have hne : ∀ k1 k2 : Fin 8, k1 ≠ k2 →
      chainOff len s ii k1 ≠ chainOff len s ii k2 :=
    fun k1 k2 hk heq => hk (chainOff_inj h h heq).2.2
  have hlt : ∀ k1 : Fin 8, chainOff len s ii k1 < b.length := by
    intro k1
    rw [hb]
    exact chainOff_lt h k1
  have C := seqShift8_cycle b (chainOff len s ii 0) (chainOff len s ii 1)
    (chainOff len s ii 2) (chainOff len s ii 3) (chainOff len s ii 4)
    (chainOff len s ii 5) (chainOff len s ii 6) (chainOff len s ii 7)
    (hne 0 1 (by decide)) (hne 0 2 (by decide)) (hne 0 3 (by decide))
    (hne 0 4 (by decide)) (hne 0 5 (by decide)) (hne 0 6 (by decide))
    (hne 0 7 (by decide)) (hne 1 2 (by decide)) (hne 1 3 (by decide))
    (hne 1 4 (by decide)) (hne 1 5 (by decide)) (hne 1 6 (by decide))
    (hne 1 7 (by decide)) (hne 2 3 (by decide)) (hne 2 4 (by decide))
    (hne 2 5 (by decide)) (hne 2 6 (by decide)) (hne 2 7 (by decide))
    (hne 3 4 (by decide)) (hne 3 5 (by decide)) (hne 3 6 (by decide))
    (hne 3 7 (by decide)) (hne 4 5 (by decide)) (hne 4 6 (by decide))
    (hne 4 7 (by decide)) (hne 5 6 (by decide)) (hne 5 7 (by decide))
    (hne 6 7 (by decide)) (hlt 0) (hlt 1) (hlt 2) (hlt 3) (hlt 4) (hlt 5)
    (hlt 6) (hlt 7)
  fin_cases k
  · exact C.1
  · exact C.2.1
  · exact C.2.2.1
  · exact C.2.2.2.1
  · exact C.2.2.2.2.1
  · exact C.2.2.2.2.2.1
  · exact C.2.2.2.2.2.2.1
  · exact C.2.2.2.2.2.2.2

theorem chainApp_iter_length (len s ii j : ℕ) (b : List Bool) :
    ((chainApp len s ii)^[j] b).length = b.length := by
  induction j with
  | zero => rfl
  | succ j ih => rw [Function.iterate_succ_apply', chainApp_length, ih]

theorem chainApp_iter_cycle {len s ii : ℕ} (h : ChainValid len s ii)
    (j : ℕ) :
    ∀ b : List Bool, b.length = len * len → ∀ k : Fin 8,
    rd ((chainApp len s ii)^[j] b) (chainOff len s ii k)
      = rd b (chainOff len s ii (k + (j : Fin 8))) := by
  induction j with
  | zero =>
    intro b hb k
    simp
  | succ j ih =>
    intro b hb k
    rw [Function.iterate_succ_apply',
      chainApp_cycle h (by rw [chainApp_iter_length]; exact hb),
      ih b hb (k + 1)]
    congr 1
    rw [Nat.cast_add, Nat.cast_one]
    rw [add_assoc, add_comm 1 ((j : Fin 8))]

theorem chainApp_iter_off {len s ii : ℕ} {o : ℕ}
    (hoff : ∀ k : Fin 8, o ≠ chainOff len s ii k) (j : ℕ) (b : List Bool) :
    rd ((chainApp len s ii)^[j] b) o = rd b o := by
  induction j with
  | zero => rfl
  | succ j ih => rw [Function.iterate_succ_apply', chainApp_rd_off hoff, ih]

theorem chainApp_iter8_id {len s ii : ℕ} (h : ChainValid len s ii)
    {b : List Bool} (hb : b.length = len * len) :
    (chainApp len s ii)^[8] b = b := by
  apply ext_rd (chainApp_iter_length len s ii 8 b)
  intro o
  by_cases ho : ∃ k : Fin 8, chainOff len s ii k = o
  · obtain ⟨k, rfl⟩ := ho
    rw [chainApp_iter_cycle h 8 b hb k]
    congr 1
    rw [show ((8 : ℕ) : Fin 8) = 0 from rfl, add_zero]
  · push_neg at ho
    exact chainApp_iter_off (fun k => (ho k).symm) 8 b

theorem chainApp_comm {len s ii s' ii' : ℕ} (h : ChainValid len s ii)
    (h' : ChainValid len s' ii') (hptne : (s, ii) ≠ (s', ii'))
    {b : List Bool} (hb : b.length = len * len) :
    chainApp len s ii (chainApp len s' ii' b)
      = chainApp len s' ii' (chainApp len s ii b) := by
  have hdisj : ∀ k k' : Fin 8,
      chainOff len s ii k ≠ chainOff len s' ii' k' := by
    intro k k' heq
    obtain ⟨e1, e2, _⟩ := chainOff_inj h h' heq
    exact hptne (by rw [e1, e2])
  apply ext_rd (by rw [chainApp_length, chainApp_length,
    chainApp_length, chainApp_length])
  intro o
  by_cases h1 : ∃ k, chainOff len s ii k = o
  · obtain ⟨k, rfl⟩ := h1
    rw [chainApp_cycle h (by rw [chainApp_length]; exact hb) k,
      chainApp_rd_off (fun k' => (hdisj (k + 1) k')),
      chainApp_rd_off (fun k' => (hdisj k k')),
      chainApp_cycle h hb k]
  · by_cases h2 : ∃ k, chainOff len s' ii' k = o
    · obtain ⟨k, rfl⟩ := h2
      push_neg at h1
      rw [chainApp_rd_off (fun k1 => (Ne.symm (h1 k1))),
        chainApp_cycle h' hb k,
        chainApp_cycle h' (by rw [chainApp_length]; exact hb) k,
        chainApp_rd_off (fun k1 => Ne.symm (hdisj k1 (k + 1)))]
    · push_neg at h1
      push_neg at h2
      rw [chainApp_rd_off (fun k1 => (Ne.symm (h1 k1))),
        chainApp_rd_off (fun k1 => (Ne.symm (h2 k1))),
        chainApp_rd_off (fun k1 => (Ne.symm (h2 k1))),
        chainApp_rd_off (fun k1 => (Ne.symm (h1 k1)))]

end DIP

namespace DIP

/-- The whole rotation as a fold of its chains. -/
def chainFold (len : ℕ) (ps : List (ℕ × ℕ)) (b : List Bool) : List Bool :=
  ps.foldl (fun b p => chainApp len p.1 p.2 b) b

theorem chainFold_length (len : ℕ) (ps : List (ℕ × ℕ)) :
    ∀ b : List Bool, (chainFold len ps b).length = b.length := by
  induction ps with
  | nil => intro b; rfl
  | cons p ps ih =>
    intro b
    show (chainFold len ps (chainApp len p.1 p.2 b)).length = b.length
    rw [ih, chainApp_length]

theorem chainFold_iter_length (len : ℕ) (ps : List (ℕ × ℕ)) (j : ℕ) :
    ∀ b : List Bool, ((chainFold len ps)^[j] b).length = b.length := by
  induction j with
  | zero => intro b; rfl
  | succ j ih =>
    intro b
    rw [Function.iterate_succ_apply', chainFold_length, ih]

theorem chainFold_pull {len : ℕ} {p : ℕ × ℕ} {ps : List (ℕ × ℕ)}
    (hp : ChainValid len p.1 p.2)
    (hps : ∀ q ∈ ps, ChainValid len q.1 q.2) (hne : ∀ q ∈ ps, p ≠ q) :
    ∀ b : List Bool, b.length = len * len →
    chainFold len ps (chainApp len p.1 p.2 b)
      = chainApp len p.1 p.2 (chainFold len ps b) := by
  induction ps with
  | nil => intro b _; rfl
  | cons q ps ih =>
    intro b hb
    have hq : ChainValid len q.1 q.2 := hps q (by simp)
    have hpq : (p.1, p.2) ≠ (q.1, q.2) := by
      simpa using hne q (by simp)
    have hcons : ∀ X : List Bool, chainFold len (q :: ps) X
        = chainFold len ps (chainApp len q.1 q.2 X) := by
      intro X
      unfold chainFold
      rw [List.foldl_cons]
    rw [hcons, hcons, ← chainApp_comm hp hq hpq hb]
    rw [ih (fun r hr => hps r (by simp [hr])) (fun r hr => hne r (by simp [hr]))
      (chainApp len q.1 q.2 b) (by rw [chainApp_length]; exact hb)]

theorem chainFold_iter_pull {len : ℕ} {p : ℕ × ℕ} {ps : List (ℕ × ℕ)}
    (hp : ChainValid len p.1 p.2)
    (hps : ∀ q ∈ ps, ChainValid len q.1 q.2) (hne : ∀ q ∈ ps, p ≠ q)
    (j : ℕ) :
    ∀ b : List Bool, b.length = len * len →
    (chainFold len ps)^[j] (chainApp len p.1 p.2 b)
      = chainApp len p.1 p.2 ((chainFold len ps)^[j] b) := by
  induction j with
  | zero => intro b _; rfl
  | succ j ih =>
    intro b hb
    rw [Function.iterate_succ_apply, Function.iterate_succ_apply,
      chainFold_pull hp hps hne b hb,
      ih (chainFold len ps b) (by rw [chainFold_length]; exact hb)]

theorem chainFold_iterate {len : ℕ} (ps : List (ℕ × ℕ))
    (hv : ∀ q ∈ ps, ChainValid len q.1 q.2) (hnd : ps.Nodup) (j : ℕ) :
    ∀ b : List Bool, b.length = len * len →
    (chainFold len ps)^[j] b
      = ps.foldl (fun b p => (chainApp len p.1 p.2)^[j] b) b := by
  induction ps with
  | nil =>
    intro b _
    rw [Function.iterate_fixed rfl]
    rfl
  | cons p ps ih =>
    have hp : ChainValid len p.1 p.2 := hv p (by simp)
    have hps : ∀ q ∈ ps, ChainValid len q.1 q.2 :=
      fun q hq => hv q (by simp [hq])
    have hpne : ∀ q ∈ ps, p ≠ q := by
      intro q hq hc
      subst hc
      exact (List.nodup_cons.mp hnd).1 hq
    have hsub : ∀ (j2 : ℕ) (b : List Bool), b.length = len * len →
        (chainFold len (p :: ps))^[j2] b
          = (chainFold len ps)^[j2] ((chainApp len p.1 p.2)^[j2] b) := by
      intro j2
      induction j2 with
      | zero => intro b _; rfl
      | succ j2 ih2 =>
        intro b hb
        rw [Function.iterate_succ_apply']
        rw [ih2 b hb]
        have hcons : ∀ X : List Bool, chainFold len (p :: ps) X
            = chainFold len ps (chainApp len p.1 p.2 X) := by
          intro X
          unfold chainFold
          rw [List.foldl_cons]
        rw [hcons]
        rw [chainFold_pull hp hps hpne _
          (by rw [chainFold_iter_length, chainApp_iter_length]; exact hb)]
        rw [← Function.iterate_succ_apply' (chainFold len ps) j2
          ((chainApp len p.1 p.2)^[j2] b)]
        rw [← chainFold_iter_pull hp hps hpne (j2 + 1)
          ((chainApp len p.1 p.2)^[j2] b)
          (by rw [chainApp_iter_length]; exact hb)]
        rw [← Function.iterate_succ_apply' (chainApp len p.1 p.2) j2 b]
    intro b hb
    rw [hsub j b hb]
    rw [ih hps (List.nodup_cons.mp hnd).2 ((chainApp len p.1 p.2)^[j] b)
      (by rw [chainApp_iter_length]; exact hb)]
    simp only [List.foldl_cons]

theorem chainFold_iter8_id {len : ℕ} (ps : List (ℕ × ℕ))
    (hv : ∀ q ∈ ps, ChainValid len q.1 q.2) :
    ∀ b : List Bool, b.length = len * len →
    ps.foldl (fun b p => (chainApp len p.1 p.2)^[8] b) b = b := by
  induction ps with
  | nil => intro b _; rfl
  | cons p ps ih =>
    intro b hb
    simp only [List.foldl_cons]
    rw [chainApp_iter8_id (hv p (by simp)) hb]
    exact ih (fun q hq => hv q (by simp [hq])) b hb

theorem nodup_flatMap_of {α β : Type} (l : List α) (g : α → List β)
    (hl : l.Nodup) (hg : ∀ a ∈ l, (g a).Nodup)
    (hdisj : ∀ a ∈ l, ∀ a' ∈ l, a ≠ a' → ∀ x ∈ g a, x ∉ g a') :
    (l.flatMap g).Nodup := by
  induction l with
  | nil => exact List.nodup_nil
  | cons a l ih =>
    rw [List.flatMap_cons, List.nodup_append]
    obtain ⟨hna, hnl⟩ := List.nodup_cons.mp hl
    refine ⟨hg a (by simp), ?_, ?_⟩
    · exact ih hnl (fun a' ha' => hg a' (by simp [ha']))
        (fun a1 h1 a2 h2 hne => hdisj a1 (by simp [h1]) a2 (by simp [h2]) hne)
    · intro x hx hx'
      rw [List.mem_flatMap] at hx'
      obtain ⟨a', ha', hxa'⟩ := hx'
      exact hdisj a (by simp) a' (by simp [ha'])
        (fun hc => hna (hc ▸ ha')) x hx hxa'

theorem chainList_valid {len : ℕ} (hodd : len % 2 = 1) :
    ∀ p ∈ chainList len, ChainValid len p.1 p.2 := by
  intro p hp
  unfold chainList at hp
  rw [List.mem_flatMap] at hp
  obtain ⟨s, hs, hp⟩ := hp
  rw [List.mem_map] at hp
  obtain ⟨ii, hii, rfl⟩ := hp
  rw [List.mem_range] at hs hii
  exact ⟨hodd, hs, hii⟩

theorem chainList_nodup (len : ℕ) : (chainList len).Nodup := by
  unfold chainList
  apply nodup_flatMap_of
  · exact List.nodup_range _
  · intro s _
    exact (List.nodup_range _).map
      (fun a b hab => by simpa using congrArg Prod.snd hab)
  · intro s1 _ s2 _ hne x hx1 hx2
    rw [List.mem_map] at hx1 hx2
    obtain ⟨i1, _, rfl⟩ := hx1
    obtain ⟨i2, _, he⟩ := hx2
    exact hne (by simpa using (congrArg Prod.fst he).symm)

/-- **C9 (amended).** For every square 2-D binary image of *odd* side
length, eight successive applications of `RotateBy45Degrees` reproduce the
original image exactly (each application is a product of disjoint 8-cycles
over the concentric shells). -/
theorem rotateBy45_iterate8_id (len : ℕ) (hodd : len % 2 = 1)
    (buf : List Bool) (hlen : buf.length = len * len) :
    (rotateBy45 len)^[8] buf = buf := by
  have hfun : rotateBy45 len = chainFold len (chainList len) :=
    funext (fun b => rotate_eq_chainFold len b)
  rw [hfun,
    chainFold_iterate (chainList len) (chainList_valid hodd)
      (chainList_nodup len) 8 buf hlen]
  exact chainFold_iter8_id (chainList len) (chainList_valid hodd) buf hlen

/-- **C9 counterexample.** For an even side length the pointer arithmetic
of shell 0 addresses samples outside the buffer (offset `2·stepY = 4` of a
2×2 image's 4 samples — undefined behavior in the C++ source, modelled
here as default-false reads and dropped writes), and eight applications do
not reproduce the input: the 2×2 image with only its first sample set
comes back as a different image. -/
theorem rotateBy45_even_size_not_identity :
    (rotateBy45 2)^[8] [true, false, false, false]
      ≠ [true, false, false, false] := by
  decide

/-- The 7×7 doctest image of sup_inf_generator.cpp: pixels at `(0,1)`,
`(2,1)`, `(2,2)`, `(3,3)` (offset `x + 7·y`). -/
def rotateTestImage : List Bool :=
  (List.range 49).map (fun o => o == 7 || o == 9 || o == 16 || o == 24)

/-- Witness for C9's amended theorem: the doctest 7×7 case. -/
theorem rotateBy45_iterate8_id_witness :
    7 % 2 = 1 ∧ rotateTestImage.length = 7 * 7 ∧
    (rotateBy45 7)^[8] rotateTestImage = rotateTestImage := by
  refine ⟨by decide, by decide, ?_⟩
  exact rotateBy45_iterate8_id 7 (by decide) rotateTestImage (by decide)

end DIP

/-
C6: Fourier transform round trip, padding and scaling (src/src/transform/fourier.cpp).
The 1-D DFT kernel lives in the vendored opencv_dxt.h, outside src/; it is
modelled from the spec and the doctest contract in fourier.cpp (lines 260-299).
The fftshift/ifftshift loops, pass structure, constructor scale and fast
padding are translated from fourier.cpp.
-/

namespace DIP

universe u
variable {α : Type u}

/-- Read sample `data[o]` of a line buffer (out-of-range reads give `dflt`). -/
def rda (dflt : α) (l : List α) (o : ℕ) : α := l.getD o dflt

/-- Write sample `data[o] = v` of a line buffer. -/
def wra (l : List α) (o : ℕ) (v : α) : List α := l.set o v

theorem wra_length (l : List α) (o : ℕ) (v : α) :
    (wra l o v).length = l.length := List.length_set l o v

theorem rda_wra_eq (dflt : α) {l : List α} {o : ℕ} (v : α) (h : o < l.length) :
    rda dflt (wra l o v) o = v := by
  unfold rda wra
  rw [List.getD_eq_getElem _ _ (by rw [List.length_set]; exact h)]
  exact List.getElem_set_self _

theorem rda_wra_ne (dflt : α) {o o' : ℕ} (l : List α) (v : α) (h : o ≠ o') :
    rda dflt (wra l o' v) o = rda dflt l o := by
  unfold rda wra
  rw [List.getD_eq_getElem?_getD, List.getD_eq_getElem?_getD,
    List.getElem?_set_ne (by omega)]

/-- One iteration of the odd-length `fftshift` loop (fourier.cpp lines 99-102):
`data[ii] = data[jj+ii+1]; data[jj+ii+1] = data[ii+1];`. -/
def fsStep (dflt : α) (jj : ℕ) (s : List α) (ii : ℕ) : List α :=
  let s1 := wra s ii (rda dflt s (jj + ii + 1))
  wra s1 (jj + ii + 1) (rda dflt s1 (ii + 1))

/-- One iteration of the even-length shift loop (fourier.cpp lines 105-107 and
121-123): `std::swap(data[ii], data[ii+jj]);`. -/
def swStep (dflt : α) (jj : ℕ) (s : List α) (ii : ℕ) : List α :=
  wra (wra s ii (rda dflt s (ii + jj))) (ii + jj) (rda dflt s ii)

/-- One iteration of the odd-length `ifftshift` loop (fourier.cpp lines 114-118,
run for decreasing `ii`): `data[jj+ii+1] = data[ii]; data[ii] = data[jj+ii];`. -/
def isStep (dflt : α) (jj : ℕ) (s : List α) (ii : ℕ) : List α :=
  let s1 := wra s (jj + ii + 1) (rda dflt s ii)
  wra s1 ii (rda dflt s1 (jj + ii))

/-- `DFTLineFilter::fftshift` (fourier.cpp lines 95-109), translated on a list
of samples. -/
def fftshiftL (dflt : α) (l : List α) : List α :=
  let n := l.length
  let jj := n / 2
  if n % 2 = 1 then
    let tmp := rda dflt l 0
    wra ((List.range jj).foldl (fsStep dflt jj) l) jj tmp
  else
    (List.range jj).foldl (swStep dflt jj) l

/-- `DFTLineFilter::ifftshift` (fourier.cpp lines 110-125), translated on a list
of samples; the decreasing loop runs over `(List.range jj).reverse`. -/
def ifftshiftL (dflt : α) (l : List α) : List α :=
  let n := l.length
  let jj := n / 2
  if n % 2 = 1 then
    let tmp := rda dflt l (n - 1)
    wra (((List.range jj).reverse).foldl (isStep dflt jj) l) jj tmp
  else
    (List.range jj).foldl (swStep dflt jj) l

theorem fsStep_length (dflt : α) (jj : ℕ) (s : List α) (ii : ℕ) :
    (fsStep dflt jj s ii).length = s.length := by
  unfold fsStep
  rw [wra_length, wra_length]

theorem swStep_length (dflt : α) (jj : ℕ) (s : List α) (ii : ℕ) :
    (swStep dflt jj s ii).length = s.length := by
  unfold swStep
  rw [wra_length, wra_length]

theorem isStep_length (dflt : α) (jj : ℕ) (s : List α) (ii : ℕ) :
    (isStep dflt jj s ii).length = s.length := by
  unfold isStep
  rw [wra_length, wra_length]

theorem foldl_step_length (step : List α → ℕ → List α)
    (hstep : ∀ s ii, (step s ii).length = s.length) :
    ∀ (L : List ℕ) (l : List α), (L.foldl step l).length = l.length := by
  intro L
  induction L with
  | nil => intro l; rfl
  | cons a L ih =>
    intro l
    rw [List.foldl_cons, ih, hstep]

/-- State of the odd `fftshift` loop after `t` iterations. -/
theorem fs_loop_spec (dflt : α) (jj : ℕ) (l : List α) (hlen : l.length = 2 * jj + 1) :
    ∀ t, t ≤ jj → ∀ x,
      rda dflt ((List.range t).foldl (fsStep dflt jj) l) x =
        if x < t then rda dflt l (jj + x + 1)
        else if x < jj + 1 then rda dflt l x
        else if x < jj + 1 + t then rda dflt l (x - jj)
        else rda dflt l x := by
  intro t
  induction t with
  | zero =>
    intro _ x
    simp only [List.range_zero, List.foldl_nil]
    split_ifs <;> first | rfl | omega
  | succ t ih =>
    intro ht x
    have ht' : t ≤ jj := by omega
    have hlt : t < jj := by omega
    rw [List.range_succ, List.foldl_append, List.foldl_cons, List.foldl_nil]
    have hSlen : ((List.range t).foldl (fsStep dflt jj) l).length = 2 * jj + 1 := by
      rw [foldl_step_length _ (fsStep_length dflt jj), hlen]
    set S := (List.range t).foldl (fsStep dflt jj) l with hS
    -- the value read for the second write: original l (t+1)
    have hread : rda dflt (wra S t (rda dflt S (jj + t + 1))) (t + 1) = rda dflt l (t + 1) := by
      rw [rda_wra_ne _ _ _ (by omega), ih ht' (t + 1)]
      split_ifs <;> first | rfl | omega
    have hhigh : rda dflt S (jj + t + 1) = rda dflt l (jj + t + 1) := by
      rw [ih ht' (jj + t + 1)]
      split_ifs <;> first | rfl | omega
    unfold fsStep
    by_cases hx1 : x = jj + t + 1
    · subst hx1
      rw [rda_wra_eq _ _ (by rw [wra_length, hSlen]; omega), hread]
      split_ifs <;> first | omega | (congr 1; omega)
    · rw [rda_wra_ne _ _ _ (by omega)]
      by_cases hx2 : x = t
      · subst hx2
        rw [rda_wra_eq _ _ (by rw [hSlen]; omega), hhigh]
        split_ifs <;> first | rfl | omega
      · rw [rda_wra_ne _ _ _ (by omega), ih ht' x]
        split_ifs <;> first | rfl | omega

end DIP

namespace DIP

/-- State of the even-length swap loop after `t` iterations. -/
theorem sw_loop_spec (dflt : α) (jj : ℕ) (l : List α) (hlen : l.length = 2 * jj) :
    ∀ t, t ≤ jj → ∀ x,
      rda dflt ((List.range t).foldl (swStep dflt jj) l) x =
        if x < t then rda dflt l (x + jj)
        else if jj ≤ x ∧ x < jj + t then rda dflt l (x - jj)
        else rda dflt l x := by
  intro t
  induction t with
  | zero =>
    intro _ x
    simp only [List.range_zero, List.foldl_nil]
    split_ifs <;> first | rfl | omega
  | succ t ih =>
    intro ht x
    have ht' : t ≤ jj := by omega
    have hlt : t < jj := by omega
    rw [List.range_succ, List.foldl_append, List.foldl_cons, List.foldl_nil]
    have hSlen : ((List.range t).foldl (swStep dflt jj) l).length = 2 * jj := by
      rw [foldl_step_length _ (swStep_length dflt jj), hlen]
    set S := (List.range t).foldl (swStep dflt jj) l with hS
    have hlow : rda dflt S t = rda dflt l t := by
      rw [ih ht' t]
      split_ifs <;> first | rfl | omega
    have hhigh : rda dflt S (t + jj) = rda dflt l (t + jj) := by
      rw [ih ht' (t + jj)]
      split_ifs <;> first | rfl | omega
    unfold swStep
    by_cases hx1 : x = t + jj
    · subst hx1
      rw [rda_wra_eq _ _ (by rw [wra_length, hSlen]; omega), hlow]
      split_ifs <;> first | omega | (congr 1; omega)
    · rw [rda_wra_ne _ _ _ (by omega)]
      by_cases hx2 : x = t
      · subst hx2
        rw [rda_wra_eq _ _ (by rw [hSlen]; omega), hhigh]
        split_ifs <;> first | rfl | omega
      · rw [rda_wra_ne _ _ _ (by omega), ih ht' x]
        split_ifs <;> first | rfl | omega

/-- State of the odd-length descending `ifftshift` loop (over indices
`t-1, ..., 0`), for any start list of the right length. -/
theorem is_loop_spec (dflt : α) (jj : ℕ) :
    ∀ t, t ≤ jj → ∀ l : List α, l.length = 2 * jj + 1 → ∀ x,
      rda dflt (((List.range t).reverse).foldl (isStep dflt jj) l) x =
        if x < t then rda dflt l (jj + x)
        else if jj + 1 ≤ x ∧ x < jj + 1 + t then rda dflt l (x - jj - 1)
        else rda dflt l x := by
  intro t
  induction t with
  | zero =>
    intro _ l _ x
    simp only [List.range_zero, List.reverse_nil, List.foldl_nil]
    split_ifs <;> first | rfl | omega
  | succ t ih =>
    intro ht l hlen x
    have ht' : t ≤ jj := by omega
    have hlt : t < jj := by omega
    have hrev : (List.range (t + 1)).reverse = t :: (List.range t).reverse := by
      rw [List.range_succ, List.reverse_append, List.reverse_singleton]
      rfl
    rw [hrev, List.foldl_cons]
    have hstep : isStep dflt jj l t
        = wra (wra l (jj + t + 1) (rda dflt l t)) t (rda dflt l (jj + t)) := by
      show wra (wra l (jj + t + 1) (rda dflt l t)) t
          (rda dflt (wra l (jj + t + 1) (rda dflt l t)) (jj + t)) = _
      rw [rda_wra_ne _ _ _ (by omega)]
    rw [hstep]
    set l' := wra (wra l (jj + t + 1) (rda dflt l t)) t (rda dflt l (jj + t)) with hl'
    have hl'len : l'.length = 2 * jj + 1 := by
      rw [hl', wra_length, wra_length, hlen]
    rw [ih ht' l' hl'len x]
    have hv1 : rda dflt l' t = rda dflt l (jj + t) := by
      rw [hl', rda_wra_eq _ _ (by rw [wra_length, hlen]; omega)]
    have hv2 : rda dflt l' (jj + t + 1) = rda dflt l t := by
      rw [hl', rda_wra_ne _ _ _ (by omega), rda_wra_eq _ _ (by rw [hlen]; omega)]
    have hv3 : ∀ y, y ≠ t → y ≠ jj + t + 1 → rda dflt l' y = rda dflt l y := by
      intro y hy1 hy2
      rw [hl', rda_wra_ne _ _ _ hy1, rda_wra_ne _ _ _ hy2]
    by_cases hx1 : x = t
    · subst hx1
      rw [if_neg (by omega), if_neg (by omega), hv1, if_pos (by omega)]
    · by_cases hx2 : x = jj + t + 1
      · subst hx2
        rw [if_neg (by omega), if_neg (by omega), hv2, if_neg (by omega),
          if_pos (by omega)]
        congr 1
        omega
      · by_cases hx3 : x < t
        · rw [if_pos hx3, hv3 _ (by omega) (by omega), if_pos (by omega)]
        · by_cases hx4 : jj + 1 ≤ x ∧ x < jj + 1 + t
          · rw [if_neg hx3, if_pos hx4, hv3 _ (by omega) (by omega),
              if_neg (by omega), if_pos (by omega)]
          · rw [if_neg hx3, if_neg hx4, hv3 _ hx1 hx2, if_neg (by omega),
              if_neg (by omega)]

end DIP

namespace DIP

theorem fftshiftL_length (dflt : α) (l : List α) :
    (fftshiftL dflt l).length = l.length := by
  simp only [fftshiftL]
  split_ifs
  · rw [wra_length, foldl_step_length _ (fsStep_length dflt _)]
  · rw [foldl_step_length _ (swStep_length dflt _)]

theorem ifftshiftL_length (dflt : α) (l : List α) :
    (ifftshiftL dflt l).length = l.length := by
  simp only [ifftshiftL]
  split_ifs
  · rw [wra_length, foldl_step_length _ (isStep_length dflt _)]
  · rw [foldl_step_length _ (swStep_length dflt _)]

/-- The source `fftshift` loops amount to a left rotation of the line by
`length/2 + length%2` positions. -/
theorem fftshiftL_getD (dflt : α) (l : List α) (k : ℕ) (hk : k < l.length) :
    rda dflt (fftshiftL dflt l) k
      = rda dflt l ((k + (l.length / 2 + l.length % 2)) % l.length) := by
  set n := l.length with hn
  set jj := n / 2 with hjj
  simp only [fftshiftL, ← hn, ← hjj]
  have hLlen : ((List.range jj).foldl (fsStep dflt jj) l).length = n := by
    rw [foldl_step_length _ (fsStep_length dflt _), hn]
  by_cases hpar : n % 2 = 1
  · rw [if_pos hpar]
    have hodd : n = 2 * jj + 1 := by omega
    by_cases hkj : k = jj
    · subst hkj
      rw [rda_wra_eq _ _ (by rw [hLlen]; omega)]
      have h1 : jj + (jj + n % 2) = n := by omega
      rw [h1, Nat.mod_self]
    · rw [rda_wra_ne _ _ _ (Ne.symm (by omega)),
        fs_loop_spec dflt jj l (by omega) jj le_rfl k]
      by_cases hlo : k < jj
      · rw [if_pos hlo]
        have h1 : (k + (jj + n % 2)) % n = jj + k + 1 := by
          rw [Nat.mod_eq_of_lt (by omega)]
          omega
        rw [h1]
      · rw [if_neg (by omega), if_neg (by omega), if_pos (by omega)]
        have h1 : (k + (jj + n % 2)) % n = k - jj := by
          rw [Nat.mod_eq_sub_mod (by omega), Nat.mod_eq_of_lt (by omega)]
          omega
        rw [h1]
  · rw [if_neg hpar]
    have heven : n = 2 * jj := by omega
    rw [sw_loop_spec dflt jj l (by omega) jj le_rfl k]
    by_cases hlo : k < jj
    · rw [if_pos hlo]
      have h1 : (k + (jj + n % 2)) % n = k + jj := by
        rw [Nat.mod_eq_of_lt (by omega)]
        omega
      rw [h1]
    · rw [if_neg (by omega), if_pos (by omega)]
      have h1 : (k + (jj + n % 2)) % n = k - jj := by
        rw [Nat.mod_eq_sub_mod (by omega), Nat.mod_eq_of_lt (by omega)]
        omega
      rw [h1]

/-- The source `ifftshift` loops amount to a left rotation of the line by
`length/2` positions. -/
theorem ifftshiftL_getD (dflt : α) (l : List α) (k : ℕ) (hk : k < l.length) :
    rda dflt (ifftshiftL dflt l) k
      = rda dflt l ((k + l.length / 2) % l.length) := by
  set n := l.length with hn
  set jj := n / 2 with hjj
  simp only [ifftshiftL, ← hn, ← hjj]
  have hLlen : (((List.range jj).reverse).foldl (isStep dflt jj) l).length = n := by
    rw [foldl_step_length _ (isStep_length dflt _), hn]
  by_cases hpar : n % 2 = 1
  · rw [if_pos hpar]
    have hodd : n = 2 * jj + 1 := by omega
    by_cases hkj : k = jj
    · subst hkj
      rw [rda_wra_eq _ _ (by rw [hLlen]; omega)]
      have h1 : (jj + jj) % n = n - 1 := by
        rw [Nat.mod_eq_of_lt (by omega)]
        omega
      rw [h1]
    · rw [rda_wra_ne _ _ _ (Ne.symm (by omega)),
        is_loop_spec dflt jj jj le_rfl l (by omega) k]
      by_cases hlo : k < jj
      · rw [if_pos hlo]
        have h1 : (k + jj) % n = jj + k := by
          rw [Nat.mod_eq_of_lt (by omega)]
          omega
        rw [h1]
      · rw [if_neg (by omega), if_pos (by omega)]
        have h1 : (k + jj) % n = k - jj - 1 := by
          rw [Nat.mod_eq_sub_mod (by omega), Nat.mod_eq_of_lt (by omega)]
          omega
        rw [h1]
  · rw [if_neg hpar]
    have heven : n = 2 * jj := by omega
    rw [sw_loop_spec dflt jj l (by omega) jj le_rfl k]
    by_cases hlo : k < jj
    · rw [if_pos hlo]
      have h1 : (k + jj) % n = k + jj := by
        rw [Nat.mod_eq_of_lt (by omega)]
      rw [h1]
    · rw [if_neg (by omega), if_pos (by omega)]
      have h1 : (k + jj) % n = k - jj := by
        rw [Nat.mod_eq_sub_mod (by omega), Nat.mod_eq_of_lt (by omega)]
        omega
      rw [h1]

end DIP

namespace DIP

/-- Contract of the vendored 1-D DFT kernel `DFT(in, out, buf, opts, scale)`:
`out[k] = scale * sum_j in[j] * exp(sign*2*pi*i*k*j/n)`, `sign = +1` for the
inverse transform and `-1` forward (fourier.cpp doctest lines 277-287). -/
noncomputable def DFTline (n : ℕ) (inverse : Bool) (scale : ℂ) (v : ℕ → ℂ) : ℕ → ℂ :=
  fun k => scale * ∑ j ∈ Finset.range n,
    v j * Complex.exp (((if inverse then (2 : ℂ) else -2) * Real.pi * Complex.I * k * j) / n)

/-- `fftshift` as an operation on a line given as a function, through the
translated list code. -/
noncomputable def fftshiftF (n : ℕ) (v : ℕ → ℂ) : ℕ → ℂ :=
  fun k => rda 0 (fftshiftL 0 ((List.range n).map v)) (k % n)

/-- `ifftshift` as an operation on a line given as a function, through the
translated list code. -/
noncomputable def ifftshiftF (n : ℕ) (v : ℕ → ℂ) : ℕ → ℂ :=
  fun k => rda 0 (ifftshiftL 0 ((List.range n).map v)) (k % n)

theorem rda_map_range (v : ℕ → ℂ) {n k : ℕ} (hk : k < n) :
    rda 0 ((List.range n).map v) k = v k := by
  unfold rda
  rw [List.getD_eq_getElem _ _ (by simpa using hk)]
  simp

theorem fftshiftF_apply (n : ℕ) (hn : 1 ≤ n) (v : ℕ → ℂ) (k : ℕ) :
    fftshiftF n v k = v ((k + (n / 2 + n % 2)) % n) := by
  have hlen : ((List.range n).map v).length = n := by simp
  unfold fftshiftF
  rw [fftshiftL_getD 0 _ (k % n) (by rw [hlen]; exact Nat.mod_lt _ (by omega)), hlen,
    Nat.mod_add_mod, rda_map_range v (Nat.mod_lt _ (by omega))]

theorem ifftshiftF_apply (n : ℕ) (hn : 1 ≤ n) (v : ℕ → ℂ) (k : ℕ) :
    ifftshiftF n v k = v ((k + n / 2) % n) := by
  have hlen : ((List.range n).map v).length = n := by simp
  unfold ifftshiftF
  rw [ifftshiftL_getD 0 _ (k % n) (by rw [hlen]; exact Nat.mod_lt _ (by omega)), hlen,
    Nat.mod_add_mod, rda_map_range v (Nat.mod_lt _ (by omega))]

/-- Applying `ifftshift` after `fftshift` restores the line (on indices mod n). -/
theorem ifftshiftF_fftshiftF (n : ℕ) (hn : 1 ≤ n) (v : ℕ → ℂ) (k : ℕ) :
    ifftshiftF n (fftshiftF n v) k = v (k % n) := by
  rw [ifftshiftF_apply n hn _ k, fftshiftF_apply n hn v _, Nat.mod_add_mod]
  congr 1
  have h1 : k + n / 2 + (n / 2 + n % 2) = k + n := by omega
  rw [h1, Nat.add_mod_right]

/-- `DFTline` only reads its input on `[0, n)`. -/
theorem DFTline_congr (n : ℕ) (inverse : Bool) (scale : ℂ) {v w : ℕ → ℂ}
    (h : ∀ t, t < n → v t = w t) (k : ℕ) :
    DFTline n inverse scale v k = DFTline n inverse scale w k := by
  unfold DFTline
  congr 1
  apply Finset.sum_congr rfl
  intro t ht
  rw [h t (Finset.mem_range.mp ht)]

/-- The kernel's scale parameter multiplies the output. -/
theorem DFTline_scale (n : ℕ) (inverse : Bool) (scale : ℂ) (v : ℕ → ℂ) (k : ℕ) :
    DFTline n inverse scale v k = scale * DFTline n inverse 1 v k := by
  unfold DFTline
  rw [one_mul]

/-- `DFTline` is linear: scalar multiples of the input pass through. -/
theorem DFTline_smul_arg (n : ℕ) (inverse : Bool) (scale c : ℂ) (v : ℕ → ℂ) (k : ℕ) :
    DFTline n inverse scale (fun t => c * v t) k = c * DFTline n inverse scale v k := by
  unfold DFTline
  rw [Finset.mul_sum, Finset.mul_sum, Finset.mul_sum]
  apply Finset.sum_congr rfl
  intro t _
  ring

open Complex Finset in
/-- Fourier inversion for the modelled 1-D kernel: an inverse transform of a
forward transform returns `scale * n` times the original line. -/
theorem DFT_inversion (n : ℕ) (hn : 1 ≤ n) (s : ℂ) (v : ℕ → ℂ) (k : ℕ)
    (hk : k < n) :
    DFTline n true s (DFTline n false 1 v) k = s * n * v k := by
  have hn0 : (n : ℂ) ≠ 0 := Nat.cast_ne_zero.mpr (by omega)
  set ω : ℂ := Complex.exp (2 * Real.pi * Complex.I / n) with hω
  have hprim : IsPrimitiveRoot ω n := by
    rw [hω]
    exact Complex.isPrimitiveRoot_exp n (by omega)
  have hω0 : ω ≠ 0 := Complex.exp_ne_zero _
  have hexpF : ∀ a b : ℕ,
      Complex.exp (((-2 : ℂ) * Real.pi * Complex.I * a * b) / n)
        = ω ^ (-((a * b : ℕ) : ℤ)) := by
    intro a b
    rw [hω, ← Complex.exp_int_mul]
    congr 1
    push_cast
    ring
  have hexpB : ∀ a b : ℕ,
      Complex.exp (((2 : ℂ) * Real.pi * Complex.I * a * b) / n)
        = ω ^ (((a * b : ℕ) : ℤ)) := by
    intro a b
    rw [hω, ← Complex.exp_int_mul]
    congr 1
    push_cast
    ring
  have e1 : ∀ j l : ℕ,
      v l * Complex.exp (((-2 : ℂ) * Real.pi * Complex.I * j * l) / n)
        * Complex.exp (((2 : ℂ) * Real.pi * Complex.I * k * j) / n)
      = v l * (ω ^ (((k : ℤ) - l))) ^ j := by
    intro j l
    rw [hexpF j l, hexpB k j]
    rw [mul_assoc, ← zpow_add₀ hω0]
    congr 1
    rw [← zpow_natCast (ω ^ ((k : ℤ) - l)) j, ← zpow_mul]
    congr 1
    push_cast
    ring
  have hgeom : ∀ l : ℕ, l < n →
      (∑ j ∈ range n, (ω ^ (((k : ℤ) - l))) ^ j) = if l = k then (n : ℂ) else 0 := by
    intro l hl
    by_cases hlk : l = k
    · subst hlk
      simp
    · rw [if_neg hlk]
      set x : ℂ := ω ^ ((k : ℤ) - l) with hx
      have hx1 : x ≠ 1 := by
        intro hone
        have hdvd : (n : ℤ) ∣ ((k : ℤ) - l) := by
          rw [← IsPrimitiveRoot.zpow_eq_one_iff_dvd hprim]
          exact hone
        obtain ⟨c, hc⟩ := hdvd
        have hkn : (k : ℤ) < n := by exact_mod_cast hk
        have hln : (l : ℤ) < n := by exact_mod_cast hl
        have hne : (k : ℤ) ≠ l := by
          intro h
          exact hlk (by exact_mod_cast h.symm)
        rcases lt_trichotomy c 0 with hc0 | hc0 | hc0
        · nlinarith
        · subst hc0
          rw [mul_zero] at hc
          exact hne (by linarith)
        · nlinarith
      have hxn : x ^ n = 1 := by
        rw [hx, ← zpow_natCast (ω ^ ((k : ℤ) - l)) n, ← zpow_mul,
          mul_comm, zpow_mul, zpow_natCast, hprim.pow_eq_one, one_zpow]
      rw [geom_sum_eq hx1, hxn]
      simp
  unfold DFTline
  simp only [if_true, Bool.false_eq_true, if_false, one_mul]
  have step1 : ∑ j ∈ range n,
      (∑ l ∈ range n, v l * Complex.exp (((-2 : ℂ) * Real.pi * Complex.I * j * l) / n))
        * Complex.exp (((2 : ℂ) * Real.pi * Complex.I * k * j) / n)
      = ∑ l ∈ range n, v l * ∑ j ∈ range n, (ω ^ (((k : ℤ) - l))) ^ j := by
    calc ∑ j ∈ range n,
        (∑ l ∈ range n, v l * Complex.exp (((-2 : ℂ) * Real.pi * Complex.I * j * l) / n))
          * Complex.exp (((2 : ℂ) * Real.pi * Complex.I * k * j) / n)
        = ∑ j ∈ range n, ∑ l ∈ range n,
            v l * Complex.exp (((-2 : ℂ) * Real.pi * Complex.I * j * l) / n)
              * Complex.exp (((2 : ℂ) * Real.pi * Complex.I * k * j) / n) := by
          simp only [Finset.sum_mul]
      _ = ∑ j ∈ range n, ∑ l ∈ range n, v l * (ω ^ (((k : ℤ) - l))) ^ j := by
          apply Finset.sum_congr rfl
          intro j _
          apply Finset.sum_congr rfl
          intro l _
          exact e1 j l
      _ = ∑ l ∈ range n, ∑ j ∈ range n, v l * (ω ^ (((k : ℤ) - l))) ^ j :=
          Finset.sum_comm
      _ = ∑ l ∈ range n, v l * ∑ j ∈ range n, (ω ^ (((k : ℤ) - l))) ^ j := by
          simp only [Finset.mul_sum]
  rw [step1]
  have step2 : ∑ l ∈ range n, v l * ∑ j ∈ range n, (ω ^ (((k : ℤ) - l))) ^ j
      = ∑ l ∈ range n, (if l = k then v l * n else 0) := by
    apply Finset.sum_congr rfl
    intro l hl
    rw [hgeom l (mem_range.mp hl)]
    by_cases hlk : l = k
    · rw [if_pos hlk, if_pos hlk]
    · rw [if_neg hlk, if_neg hlk, mul_zero]
  rw [step2, Finset.sum_ite_eq' (range n) k (fun l => v l * n),
    if_pos (mem_range.mpr hk)]
  ring

end DIP

namespace DIP

/-- A line operation given by an `n`-column matrix: it is linear and reads its
input only on `[0, n)`. All per-dimension operations of the separable Fourier
pass have this form. -/
def WindowOp (n : ℕ) (op : (ℕ → ℂ) → (ℕ → ℂ)) : Prop :=
  ∃ M : ℕ → ℕ → ℂ, ∀ v k, op v k = ∑ t ∈ Finset.range n, M k t * v t

theorem windowOp_DFTline (n : ℕ) (inverse : Bool) (scale : ℂ) :
    WindowOp n (DFTline n inverse scale) := by
  refine ⟨fun k t => scale *
    Complex.exp (((if inverse then (2 : ℂ) else -2) * Real.pi * Complex.I * k * t) / n),
    fun v k => ?_⟩
  unfold DFTline
  rw [Finset.mul_sum]
  apply Finset.sum_congr rfl
  intro t _
  ring

theorem sum_delta_row (n : ℕ) (idx : ℕ) (hidx : idx < n) (v : ℕ → ℂ) :
    ∑ t ∈ Finset.range n, (if t = idx then (1 : ℂ) else 0) * v t = v idx := by
  have h1 : ∑ t ∈ Finset.range n, (if t = idx then (1 : ℂ) else 0) * v t
      = ∑ t ∈ Finset.range n, (if t = idx then v t else 0) := by
    apply Finset.sum_congr rfl
    intro t _
    split_ifs <;> simp
  rw [h1, Finset.sum_ite_eq' (Finset.range n) idx v,
    if_pos (Finset.mem_range.mpr hidx)]

theorem windowOp_fftshiftF (n : ℕ) (hn : 1 ≤ n) : WindowOp n (fftshiftF n) := by
  refine ⟨fun k t => if t = (k + (n / 2 + n % 2)) % n then 1 else 0, fun v k => ?_⟩
  show fftshiftF n v k
    = ∑ t ∈ Finset.range n, (if t = (k + (n / 2 + n % 2)) % n then (1 : ℂ) else 0) * v t
  rw [fftshiftF_apply n hn v k, sum_delta_row n _ (Nat.mod_lt _ (by omega)) v]

theorem windowOp_ifftshiftF (n : ℕ) (hn : 1 ≤ n) : WindowOp n (ifftshiftF n) := by
  refine ⟨fun k t => if t = (k + n / 2) % n then 1 else 0, fun v k => ?_⟩
  show ifftshiftF n v k
    = ∑ t ∈ Finset.range n, (if t = (k + n / 2) % n then (1 : ℂ) else 0) * v t
  rw [ifftshiftF_apply n hn v k, sum_delta_row n _ (Nat.mod_lt _ (by omega)) v]

theorem windowOp_comp {n : ℕ} {op op' : (ℕ → ℂ) → (ℕ → ℂ)}
    (h : WindowOp n op) (h' : WindowOp n op') :
    WindowOp n (fun v => op' (op v)) := by
  obtain ⟨M, hM⟩ := h
  obtain ⟨M', hM'⟩ := h'
  refine ⟨fun k u => ∑ t ∈ Finset.range n, M' k t * M t u, fun v k => ?_⟩
  show op' (op v) k = ∑ u ∈ Finset.range n, (∑ t ∈ Finset.range n, M' k t * M t u) * v u
  rw [hM' (op v) k]
  calc ∑ t ∈ Finset.range n, M' k t * op v t
      = ∑ t ∈ Finset.range n, ∑ u ∈ Finset.range n, M' k t * (M t u * v u) := by
        apply Finset.sum_congr rfl
        intro t _
        rw [hM v t, Finset.mul_sum]
    _ = ∑ u ∈ Finset.range n, ∑ t ∈ Finset.range n, M' k t * (M t u * v u) :=
        Finset.sum_comm
    _ = ∑ u ∈ Finset.range n, (∑ t ∈ Finset.range n, M' k t * M t u) * v u := by
        apply Finset.sum_congr rfl
        intro u _
        rw [Finset.sum_mul]
        apply Finset.sum_congr rfl
        intro t _
        ring

theorem windowOp_smul {n : ℕ} {op : (ℕ → ℂ) → (ℕ → ℂ)} (h : WindowOp n op)
    (c : ℂ) (v : ℕ → ℂ) (k : ℕ) :
    op (fun t => c * v t) k = c * op v k := by
  obtain ⟨M, hM⟩ := h
  rw [hM, hM v k, Finset.mul_sum]
  apply Finset.sum_congr rfl
  intro t _
  ring

theorem windowOp_congr {n : ℕ} {op : (ℕ → ℂ) → (ℕ → ℂ)} (h : WindowOp n op)
    {v w : ℕ → ℂ} (hvw : ∀ t, t < n → v t = w t) (k : ℕ) :
    op v k = op w k := by
  obtain ⟨M, hM⟩ := h
  rw [hM, hM]
  apply Finset.sum_congr rfl
  intro t ht
  rw [hvw t (Finset.mem_range.mp ht)]

/-- One pass of `DFTLineFilter::Filter` (fourier.cpp lines 59-93) on one line:
optional origin shift into the buffer, the DFT kernel, optional shift of the
output; `shift_` is `!corner`, and the inverse transform uses `ifftshift`. -/
noncomputable def passOp (n : ℕ) (inverse corner : Bool) (scale : ℂ) :
    (ℕ → ℂ) → ℕ → ℂ :=
  fun v =>
    if corner then DFTline n inverse scale v
    else if inverse then ifftshiftF n (DFTline n inverse scale (ifftshiftF n v))
    else fftshiftF n (DFTline n inverse scale (fftshiftF n v))

theorem windowOp_passOp (n : ℕ) (hn : 1 ≤ n) (inverse corner : Bool) (scale : ℂ) :
    WindowOp n (passOp n inverse corner scale) := by
  unfold passOp
  by_cases hc : corner
  · simp only [if_pos hc]
    exact windowOp_DFTline n inverse scale
  · simp only [if_neg hc]
    by_cases hi : inverse
    · simp only [if_pos hi]
      exact windowOp_comp (windowOp_comp (windowOp_ifftshiftF n hn)
        (windowOp_DFTline n inverse scale)) (windowOp_ifftshiftF n hn)
    · simp only [if_neg hi]
      exact windowOp_comp (windowOp_comp (windowOp_fftshiftF n hn)
        (windowOp_DFTline n inverse scale)) (windowOp_fftshiftF n hn)

end DIP

namespace DIP

/-- One inverse pass undoes one forward pass up to the factor
`(inverse scale) * (forward scale) * n`, under both origin conventions. -/
theorem passOp_roundtrip (n : ℕ) (hn : 1 ≤ n) (corner : Bool) (sF sB : ℂ)
    (v : ℕ → ℂ) (k : ℕ) (hk : k < n) :
    passOp n true corner sB (passOp n false corner sF v) k = sB * sF * n * v k := by
  have hcore : ∀ (w : ℕ → ℂ) (m : ℕ), m < n →
      DFTline n true sB (DFTline n false sF w) m = sB * sF * n * w m := by
    intro w m hm
    have h1 : ∀ t, t < n → DFTline n false sF w t = sF * DFTline n false 1 w t :=
      fun t _ => DFTline_scale n false sF w t
    rw [DFTline_congr n true sB h1 m]
    have h2 : DFTline n true sB (fun t => sF * DFTline n false 1 w t) m
        = sF * DFTline n true sB (DFTline n false 1 w) m :=
      DFTline_smul_arg n true sB sF (DFTline n false 1 w) m
    rw [h2, DFT_inversion n hn sB w m hm]
    ring
  by_cases hc : corner
  · simp only [passOp, if_pos hc]
    exact hcore v k hk
  · simp only [passOp, if_neg hc, eq_self_iff_true, if_true, Bool.false_eq_true, if_false]
    rw [ifftshiftF_apply n hn _ k]
    set m := (k + n / 2) % n with hm
    have hmn : m < n := Nat.mod_lt _ (by omega)
    have hinner : ∀ t, t < n →
        ifftshiftF n (fftshiftF n (DFTline n false sF (fftshiftF n v))) t
          = DFTline n false sF (fftshiftF n v) t := by
      intro t ht
      rw [ifftshiftF_fftshiftF n hn _ t, Nat.mod_eq_of_lt ht]
    rw [windowOp_congr (windowOp_DFTline n true sB) hinner m,
      hcore (fftshiftF n v) m hmn, fftshiftF_apply n hn v m]
    congr 1
    rw [hm, Nat.mod_add_mod]
    have h3 : k + n / 2 + (n / 2 + n % 2) = k + n := by omega
    rw [h3, Nat.add_mod_right, Nat.mod_eq_of_lt hk]

/-- The pass scale factors out of a pass. -/
theorem passOp_scale (n : ℕ) (hn : 1 ≤ n) (inverse corner : Bool) (s : ℂ)
    (v : ℕ → ℂ) (k : ℕ) :
    passOp n inverse corner s v k = s * passOp n inverse corner 1 v k := by
  by_cases hc : corner
  · simp only [passOp, if_pos hc]
    exact DFTline_scale n inverse s v k
  · by_cases hi : inverse
    · simp only [passOp, if_neg hc, if_pos hi]
      rw [ifftshiftF_apply n hn _ k, ifftshiftF_apply n hn _ k,
        DFTline_scale n inverse s]
    · simp only [passOp, if_neg hc, if_neg hi]
      rw [fftshiftF_apply n hn _ k, fftshiftF_apply n hn _ k,
        DFTline_scale n inverse s]

end DIP

namespace DIP

/-- Apply a line operation along dimension `j` of a `d`-dimensional image
(the job `Framework::Separable` performs for one processing pass). -/
noncomputable def applyAlong {d : ℕ} (j : Fin d) (op : (ℕ → ℂ) → ℕ → ℂ)
    (img : (Fin d → ℕ) → ℂ) : (Fin d → ℕ) → ℂ :=
  fun x => op (fun t => img (Function.update x j t)) (x j)

theorem applyAlong_same {d : ℕ} (j : Fin d) (op op' : (ℕ → ℂ) → ℕ → ℂ)
    (img : (Fin d → ℕ) → ℂ) :
    applyAlong j op' (applyAlong j op img) = applyAlong j (fun v => op' (op v)) img := by
  funext x
  unfold applyAlong
  congr 1
  funext t
  congr 1
  · funext u
    rw [Function.update_idem]
  · rw [Function.update_same]

theorem applyAlong_comm {d : ℕ} {i j : Fin d} (hij : i ≠ j)
    {ni nj : ℕ} {op op' : (ℕ → ℂ) → ℕ → ℂ}
    (hop : WindowOp ni op) (hop' : WindowOp nj op')
    (img : (Fin d → ℕ) → ℂ) :
    applyAlong i op (applyAlong j op' img) = applyAlong j op' (applyAlong i op img) := by
  obtain ⟨M, hM⟩ := hop
  obtain ⟨M', hM'⟩ := hop'
  funext x
  unfold applyAlong
  rw [hM, hM']
  have h1 : ∀ t, (Function.update x i t) j = x j := fun t =>
    Function.update_noteq (Ne.symm hij) _ _
  have h2 : ∀ u, (Function.update x j u) i = x i := fun u =>
    Function.update_noteq hij _ _
  calc ∑ t ∈ Finset.range ni, M (x i) t *
        applyAlong j op' img (Function.update x i t)
      = ∑ t ∈ Finset.range ni, ∑ u ∈ Finset.range nj,
          M (x i) t * (M' (x j) u * img (Function.update (Function.update x i t) j u)) := by
        apply Finset.sum_congr rfl
        intro t _
        unfold applyAlong
        rw [hM', h1 t, Finset.mul_sum]
    _ = ∑ u ∈ Finset.range nj, ∑ t ∈ Finset.range ni,
          M (x i) t * (M' (x j) u * img (Function.update (Function.update x i t) j u)) :=
        Finset.sum_comm
    _ = ∑ u ∈ Finset.range nj, M' (x j) u *
          applyAlong i op img (Function.update x j u) := by
        apply Finset.sum_congr rfl
        intro u _
        unfold applyAlong
        rw [hM, h2 u, Finset.mul_sum]
        apply Finset.sum_congr rfl
        intro t _
        rw [Function.update_comm hij]
        ring

theorem applyAlong_congr_slice {d : ℕ} {i j₀ : Fin d} (hij : i ≠ j₀) {a : ℕ}
    (op : (ℕ → ℂ) → ℕ → ℂ) {img₁ img₂ : (Fin d → ℕ) → ℂ}
    (h : ∀ y, y j₀ = a → img₁ y = img₂ y) :
    ∀ y, y j₀ = a → applyAlong i op img₁ y = applyAlong i op img₂ y := by
  intro y hy
  unfold applyAlong
  congr 1
  funext t
  exact h _ (by rw [Function.update_noteq (Ne.symm hij)]; exact hy)

theorem applyAlong_smul {d : ℕ} (j : Fin d) {n : ℕ} {op : (ℕ → ℂ) → ℕ → ℂ}
    (hop : WindowOp n op) (c : ℂ) (img : (Fin d → ℕ) → ℂ) :
    applyAlong j op (fun y => c * img y) = fun y => c * applyAlong j op img y := by
  funext y
  unfold applyAlong
  exact windowOp_smul hop c _ _

/-- The separable pass structure: fold the per-dimension passes over a list of
dimensions (`Framework::Separable` runs one pass per processed dimension, in
increasing order). -/
noncomputable def sepFold {d : ℕ} (F : Fin d → (ℕ → ℂ) → ℕ → ℂ)
    (dims : List (Fin d)) (img : (Fin d → ℕ) → ℂ) : (Fin d → ℕ) → ℂ :=
  dims.foldl (fun im j => applyAlong j (F j) im) img

theorem sepFold_nil {d : ℕ} (F : Fin d → (ℕ → ℂ) → ℕ → ℂ) (img : (Fin d → ℕ) → ℂ) :
    sepFold F [] img = img := rfl

theorem sepFold_cons {d : ℕ} (F : Fin d → (ℕ → ℂ) → ℕ → ℂ) (j : Fin d)
    (dims : List (Fin d)) (img : (Fin d → ℕ) → ℂ) :
    sepFold F (j :: dims) img = sepFold F dims (applyAlong j (F j) img) := rfl

theorem sepFold_comm {d : ℕ} (N : Fin d → ℕ) (F : Fin d → (ℕ → ℂ) → ℕ → ℂ)
    (hF : ∀ i, WindowOp (N i) (F i))
    {j : Fin d} {n : ℕ} {op : (ℕ → ℂ) → ℕ → ℂ} (hop : WindowOp n op) :
    ∀ (dims : List (Fin d)), j ∉ dims → ∀ (img : (Fin d → ℕ) → ℂ),
      sepFold F dims (applyAlong j op img) = applyAlong j op (sepFold F dims img) := by
  intro dims
  induction dims with
  | nil => intro _ img; rfl
  | cons i rest ih =>
    intro hj img
    have hij : i ≠ j := fun h => hj (h ▸ List.mem_cons_self i rest)
    rw [sepFold_cons, sepFold_cons,
      applyAlong_comm hij (hF i) hop img,
      ih (fun h => hj (List.mem_cons_of_mem i h))]

theorem sepFold_congr_slice {d : ℕ} (F : Fin d → (ℕ → ℂ) → ℕ → ℂ)
    {j₀ : Fin d} {a : ℕ} :
    ∀ (dims : List (Fin d)), j₀ ∉ dims →
      ∀ {img₁ img₂ : (Fin d → ℕ) → ℂ}, (∀ y, y j₀ = a → img₁ y = img₂ y) →
      ∀ y, y j₀ = a → sepFold F dims img₁ y = sepFold F dims img₂ y := by
  intro dims
  induction dims with
  | nil => intro _ _ _ h y hy; exact h y hy
  | cons i rest ih =>
    intro hj img₁ img₂ h y hy
    have hij : i ≠ j₀ := fun he => hj (he ▸ List.mem_cons_self i rest)
    rw [sepFold_cons, sepFold_cons]
    exact ih (fun hmem => hj (List.mem_cons_of_mem i hmem))
      (applyAlong_congr_slice hij (F i) h) y hy

theorem sepFold_smul {d : ℕ} (N : Fin d → ℕ) (F : Fin d → (ℕ → ℂ) → ℕ → ℂ)
    (hF : ∀ i, WindowOp (N i) (F i)) :
    ∀ (dims : List (Fin d)) (c : ℂ) (img : (Fin d → ℕ) → ℂ),
      sepFold F dims (fun y => c * img y) = fun y => c * sepFold F dims img y := by
  intro dims
  induction dims with
  | nil => intro c img; rfl
  | cons i rest ih =>
    intro c img
    rw [sepFold_cons, applyAlong_smul i (hF i) c img, ih, sepFold_cons]

/-- Inverse passes undo forward passes dimension by dimension: folding the
inverse pass family after the forward pass family multiplies the image by the
product of the per-dimension factors, at every in-range point. -/
theorem sepFold_roundtrip {d : ℕ} (N : Fin d → ℕ)
    (A B : Fin d → (ℕ → ℂ) → ℕ → ℂ) (c : Fin d → ℂ)
    (hWA : ∀ i, WindowOp (N i) (A i)) (hWB : ∀ i, WindowOp (N i) (B i))
    (hinv : ∀ j (v : ℕ → ℂ) (k : ℕ), k < N j → B j (A j v) k = c j * v k) :
    ∀ (dims : List (Fin d)), dims.Nodup →
      ∀ (img : (Fin d → ℕ) → ℂ) (x : Fin d → ℕ), (∀ j ∈ dims, x j < N j) →
      sepFold B dims (sepFold A dims img) x = (dims.map c).prod * img x := by
  intro dims
  induction dims with
  | nil =>
    intro _ img x _
    rw [sepFold_nil, sepFold_nil, List.map_nil, List.prod_nil, one_mul]
  | cons j rest ih =>
    intro hnd img x hx
    have hjrest : j ∉ rest := (List.nodup_cons.mp hnd).1
    have hndrest : rest.Nodup := (List.nodup_cons.mp hnd).2
    rw [sepFold_cons, sepFold_cons,
      ← sepFold_comm N A hWA (hWB j) rest hjrest (applyAlong j (A j) img),
      applyAlong_same j (A j) (B j) img]
    have hslice : ∀ y : Fin d → ℕ, y j = x j →
        applyAlong j (fun v => B j (A j v)) img y = (fun z => c j * img z) y := by
      intro y hy
      unfold applyAlong
      show B j (A j (fun t => img (Function.update y j t))) (y j) = c j * img y
      rw [hinv j _ (y j) (by rw [hy]; exact hx j (List.mem_cons_self j rest))]
      rw [Function.update_eq_self]
    have h1 : sepFold B rest (sepFold A rest (applyAlong j (fun v => B j (A j v)) img)) x
        = sepFold B rest (sepFold A rest (fun z => c j * img z)) x := by
      have hA := sepFold_congr_slice A rest hjrest hslice
      exact sepFold_congr_slice B rest hjrest hA x rfl
    rw [h1]
    calc sepFold B rest (sepFold A rest (fun z => c j * img z)) x
        = sepFold B rest (fun y => c j * sepFold A rest img y) x := by
          rw [sepFold_smul N A hWA rest (c j) img]
      _ = c j * sepFold B rest (sepFold A rest img) x := by
          rw [sepFold_smul N B hWB rest (c j) (sepFold A rest img)]
      _ = c j * ((rest.map c).prod * img x) := by
          rw [ih hndrest img x (fun i hi => hx i (List.mem_cons_of_mem j hi))]
      _ = ((j :: rest).map c).prod * img x := by
          rw [List.map_cons, List.prod_cons]
          ring

end DIP

namespace DIP

/-- Accumulated scale of the `DFTLineFilter` constructor (fourier.cpp lines
42-54), all dimensions processed: `1/N` per dimension if `inverse` or
`symmetric`, then a square root if `symmetric`. -/
noncomputable def ctorScale (d : ℕ) (N : Fin d → ℕ) (inverse symmetric : Bool) : ℝ :=
  let s : ℝ := if inverse || symmetric then ∏ ii, ((N ii : ℝ))⁻¹ else 1
  if symmetric then Real.sqrt s else s

/-- The full `FourierTransform` data path on an image of sizes `N` (all
dimensions processed): one separable pass per dimension in increasing order,
with the constructor scale applied only on the final pass
(`params.pass == params.nPasses - 1`, fourier.cpp lines 74-77). -/
noncomputable def fourierModel (d : ℕ) (N : Fin d → ℕ)
    (inverse corner symmetric : Bool) (img : (Fin d → ℕ) → ℂ) : (Fin d → ℕ) → ℂ :=
  sepFold (fun j => passOp (N j) inverse corner
    (if j.val = d - 1 then ((ctorScale d N inverse symmetric : ℝ) : ℂ) else 1))
    (List.finRange d) img

/-- The same passes with no scale anywhere. -/
noncomputable def fourierModelUnscaled (d : ℕ) (N : Fin d → ℕ)
    (inverse corner : Bool) (img : (Fin d → ℕ) → ℂ) : (Fin d → ℕ) → ℂ :=
  sepFold (fun j => passOp (N j) inverse corner 1) (List.finRange d) img

/-- Padding border for the `fast` option: `div_ceil(sz - outSize, 2)`
(fourier.cpp line 187). -/
def padBorder {d : ℕ} (N Npad : Fin d → ℕ) (i : Fin d) : ℕ :=
  (Npad i - N i + 1) / 2

/-- The input image extended to the padded sizes with
`BoundaryCondition::ZERO_ORDER_EXTRAPOLATE` (fourier.cpp line 180): each
coordinate is clamped back into the original image. -/
noncomputable def padExtend {d : ℕ} (N Npad : Fin d → ℕ)
    (img : (Fin d → ℕ) → ℂ) : (Fin d → ℕ) → ℂ :=
  fun y => img (fun i =>
    if y i < padBorder N Npad i then 0
    else min (y i - padBorder N Npad i) (N i - 1))

/-- Cropping a padded-size image back to the original sizes, anchored where
the padding placed the original data. -/
noncomputable def cropAt {d : ℕ} (N Npad : Fin d → ℕ)
    (img' : (Fin d → ℕ) → ℂ) : (Fin d → ℕ) → ℂ :=
  fun x => img' (fun i => x i + padBorder N Npad i)

theorem prodSite {d : ℕ} (hd : 1 ≤ d) (S : ℂ) :
    ((List.finRange d).map (fun j : Fin d => if j.val = d - 1 then S else 1)).prod
      = S := by
  rw [← List.ofFn_eq_map, List.prod_ofFn]
  have hb : d - 1 < d := by omega
  have h1 : ∀ j : Fin d, (if j.val = d - 1 then S else 1)
      = (if j = ⟨d - 1, hb⟩ then S else 1) := by
    intro j
    by_cases h : j.val = d - 1
    · rw [if_pos h, if_pos (Fin.ext h)]
    · rw [if_neg h, if_neg (fun he => h (by rw [he]))]
  rw [Finset.prod_congr rfl (fun j _ => h1 j),
    Finset.prod_ite_eq' Finset.univ (⟨d - 1, hb⟩ : Fin d) (fun _ => S),
    if_pos (Finset.mem_univ _)]

theorem prodPass {d : ℕ} (N : Fin d → ℕ) (SB SF : ℂ) :
    ((List.finRange d).map (fun j : Fin d =>
        (if j.val = d - 1 then SB else 1) * (if j.val = d - 1 then SF else 1)
          * (N j : ℂ))).prod
      = ((List.finRange d).map (fun j : Fin d => if j.val = d - 1 then SB else 1)).prod
        * ((List.finRange d).map (fun j : Fin d => if j.val = d - 1 then SF else 1)).prod
        * ((List.finRange d).map (fun j : Fin d => (N j : ℂ))).prod := by
  rw [← List.ofFn_eq_map, ← List.ofFn_eq_map, ← List.ofFn_eq_map, ← List.ofFn_eq_map,
    List.prod_ofFn, List.prod_ofFn, List.prod_ofFn, List.prod_ofFn,
    ← Finset.prod_mul_distrib, ← Finset.prod_mul_distrib]

/-- Core round trip: an inverse model transform after a forward model
transform is the identity on every in-range pixel. -/
theorem fourierModel_roundtrip (d : ℕ) (N : Fin d → ℕ) (hN : ∀ i, 1 ≤ N i)
    (corner symmetric : Bool) (img : (Fin d → ℕ) → ℂ)
    (x : Fin d → ℕ) (hx : ∀ i, x i < N i) :
    fourierModel d N true corner symmetric
      (fourierModel d N false corner symmetric img) x = img x := by
  unfold fourierModel
  set SB : ℂ := ((ctorScale d N true symmetric : ℝ) : ℂ) with hSB
  set SF : ℂ := ((ctorScale d N false symmetric : ℝ) : ℂ) with hSF
  rw [sepFold_roundtrip N
    (fun j => passOp (N j) false corner (if j.val = d - 1 then SF else 1))
    (fun j => passOp (N j) true corner (if j.val = d - 1 then SB else 1))
    (fun j => (if j.val = d - 1 then SB else 1) * (if j.val = d - 1 then SF else 1) * (N j : ℂ))
    (fun j => windowOp_passOp (N j) (hN j) false corner _)
    (fun j => windowOp_passOp (N j) (hN j) true corner _)
    (fun j v k hk => passOp_roundtrip (N j) (hN j) corner _ _ v k hk)
    (List.finRange d) (List.nodup_finRange d) img x (fun j _ => hx j)]
  rw [prodPass N SB SF]
  rcases Nat.eq_zero_or_pos d with hd | hd
  · subst hd
    simp
  · rw [prodSite hd SB, prodSite hd SF, ← List.ofFn_eq_map, List.prod_ofFn]
    have hNprod : SB * SF * (∏ j : Fin d, (N j : ℂ)) = 1 := by
      have hsum : ∀ j : Fin d, ((N j : ℂ)) ≠ 0 :=
        fun j => Nat.cast_ne_zero.mpr (by have := hN j; omega)
      by_cases hs : symmetric
      · have hs0 : (0 : ℝ) ≤ ∏ ii, ((N ii : ℝ))⁻¹ :=
          Finset.prod_nonneg (fun i _ => inv_nonneg.mpr (by positivity))
        have hSBval : SB = ((Real.sqrt (∏ ii, ((N ii : ℝ))⁻¹) : ℝ) : ℂ) := by
          rw [hSB]
          unfold ctorScale
          rw [if_pos hs]
          norm_num
        have hSFval : SF = ((Real.sqrt (∏ ii, ((N ii : ℝ))⁻¹) : ℝ) : ℂ) := by
          rw [hSF]
          unfold ctorScale
          rw [if_pos hs]
          simp [hs]
        rw [hSBval, hSFval, ← Complex.ofReal_mul, Real.mul_self_sqrt hs0,
          Complex.ofReal_prod]
        rw [← Finset.prod_mul_distrib]
        rw [Finset.prod_congr rfl (fun j _ => ?_), Finset.prod_const_one]
        rw [Complex.ofReal_inv, Complex.ofReal_natCast]
        exact inv_mul_cancel₀ (hsum j)
      · have hSBval : SB = ((∏ ii, ((N ii : ℝ))⁻¹ : ℝ) : ℂ) := by
          rw [hSB]
          unfold ctorScale
          simp [hs]
        have hSFval : SF = 1 := by
          rw [hSF]
          unfold ctorScale
          simp [hs]
        rw [hSBval, hSFval, Complex.ofReal_prod, mul_one, ← Finset.prod_mul_distrib]
        rw [Finset.prod_congr rfl (fun j _ => ?_), Finset.prod_const_one]
        rw [Complex.ofReal_inv, Complex.ofReal_natCast]
        exact inv_mul_cancel₀ (hsum j)
    rw [hNprod, one_mul]

end DIP

namespace DIP

/-- The `fast`-padded round trip: transform the padded image, invert, then
crop back at the padding anchor; every original pixel is recovered. -/
theorem fourierModel_fast_roundtrip (d : ℕ) (N Npad : Fin d → ℕ)
    (hN : ∀ i, 1 ≤ N i) (hpad : ∀ i, N i ≤ Npad i)
    (corner symmetric : Bool) (img : (Fin d → ℕ) → ℂ)
    (x : Fin d → ℕ) (hx : ∀ i, x i < N i) :
    cropAt N Npad (fourierModel d Npad true corner symmetric
      (fourierModel d Npad false corner symmetric (padExtend N Npad img))) x
      = img x := by
  unfold cropAt
  have hN' : ∀ i, 1 ≤ Npad i := fun i => le_trans (hN i) (hpad i)
  have hy : ∀ i, x i + padBorder N Npad i < Npad i := by
    intro i
    have h1 := hx i
    have h2 := hpad i
    unfold padBorder
    omega
  rw [fourierModel_roundtrip d Npad hN' corner symmetric _ _ hy]
  unfold padExtend
  congr 1
  funext i
  show (if x i + padBorder N Npad i < padBorder N Npad i then 0
    else min (x i + padBorder N Npad i - padBorder N Npad i) (N i - 1)) = x i
  rw [if_neg (by omega)]
  have h1 : x i + padBorder N Npad i - padBorder N Npad i = x i := by omega
  rw [h1]
  exact min_eq_left (by have := hx i; omega)

/-- If every pass of family `F` is the corresponding pass of family `G` times
a per-dimension factor, the fold of `F` is the fold of `G` times the product
of the factors. -/
theorem sepFold_scaled {d : ℕ} (N : Fin d → ℕ)
    (F G : Fin d → (ℕ → ℂ) → ℕ → ℂ) (s : Fin d → ℂ)
    (hG : ∀ i, WindowOp (N i) (G i))
    (hFG : ∀ j (v : ℕ → ℂ) (k : ℕ), F j v k = s j * G j v k) :
    ∀ (dims : List (Fin d)) (img : (Fin d → ℕ) → ℂ) (x : Fin d → ℕ),
      sepFold F dims img x = (dims.map s).prod * sepFold G dims img x := by
  intro dims
  induction dims with
  | nil =>
    intro img x
    rw [sepFold_nil, sepFold_nil, List.map_nil, List.prod_nil, one_mul]
  | cons j rest ih =>
    intro img x
    rw [sepFold_cons, sepFold_cons]
    have h1 : applyAlong j (F j) img = fun y => s j * applyAlong j (G j) img y := by
      funext y
      unfold applyAlong
      exact hFG j _ _
    rw [h1, ih _ x, sepFold_smul N G hG rest (s j) (applyAlong j (G j) img),
      List.map_cons, List.prod_cons]
    ring

/-- The constructor scale is applied exactly once, on the final pass: the
model equals the completely unscaled pass chain times the single factor. -/
theorem fourierModel_scale_once (d : ℕ) (hd : 1 ≤ d) (N : Fin d → ℕ)
    (hN : ∀ i, 1 ≤ N i) (inverse corner symmetric : Bool)
    (img : (Fin d → ℕ) → ℂ) (y : Fin d → ℕ) :
    fourierModel d N inverse corner symmetric img y
      = ((ctorScale d N inverse symmetric : ℝ) : ℂ)
        * fourierModelUnscaled d N inverse corner img y := by
  unfold fourierModel fourierModelUnscaled
  have hFG : ∀ (j : Fin d) (v : ℕ → ℂ) (k : ℕ),
      passOp (N j) inverse corner
          (if j.val = d - 1 then ((ctorScale d N inverse symmetric : ℝ) : ℂ) else 1) v k
        = (if j.val = d - 1 then ((ctorScale d N inverse symmetric : ℝ) : ℂ) else 1)
          * passOp (N j) inverse corner 1 v k := by
    intro j v k
    rcases eq_or_ne (j.val) (d - 1) with h | h
    · simp only [if_pos h]
      exact passOp_scale (N j) (hN j) inverse corner _ v k
    · simp only [if_neg h]
      rw [one_mul]
  rw [sepFold_scaled N _ (fun j => passOp (N j) inverse corner 1)
    (fun j => if j.val = d - 1 then ((ctorScale d N inverse symmetric : ℝ) : ℂ) else 1)
    (fun j => windowOp_passOp (N j) (hN j) inverse corner 1)
    hFG (List.finRange d) img y,
    prodSite hd _]

theorem ctorScale_values (d : ℕ) (N : Fin d → ℕ) :
    ctorScale d N false false = 1
    ∧ ctorScale d N true false = ∏ ii, ((N ii : ℝ))⁻¹
    ∧ ctorScale d N false true = Real.sqrt (∏ ii, ((N ii : ℝ))⁻¹)
    ∧ ctorScale d N true true = Real.sqrt (∏ ii, ((N ii : ℝ))⁻¹) := by
  refine ⟨?_, ?_, ?_, ?_⟩ <;> (unfold ctorScale; simp)

end DIP

namespace DIP

/-- C6: For every in-range pixel of an image of sizes `N` (all ≥ 1, all
dimensions processed), the inverse model transform of the forward model
transform reproduces the pixel exactly, under both the `corner` and the
default shifted-origin conventions; the same holds in the `fast`-padded case
after cropping the result back to the original sizes at the padding anchor;
and the scaling that makes this hold is applied exactly once, on the final
pass, with constructor factor 1 for the plain forward transform, `1/N` per
processed dimension for `inverse`, and `sqrt(1/N)` per processed dimension
for `symmetric`. -/
theorem fourierTransform_roundtrip_and_scaling
    (d : ℕ) (N Npad : Fin d → ℕ) (corner symmetric : Bool)
    (img : (Fin d → ℕ) → ℂ) (x : Fin d → ℕ)
    (hN : ∀ i, 1 ≤ N i) (hpad : ∀ i, N i ≤ Npad i) (hx : ∀ i, x i < N i) :
    fourierModel d N true corner symmetric
        (fourierModel d N false corner symmetric img) x = img x
    ∧ cropAt N Npad (fourierModel d Npad true corner symmetric
        (fourierModel d Npad false corner symmetric (padExtend N Npad img))) x
        = img x
    ∧ ctorScale d N false false = 1
    ∧ ctorScale d N true false = ∏ ii, ((N ii : ℝ))⁻¹
    ∧ ctorScale d N false true = Real.sqrt (∏ ii, ((N ii : ℝ))⁻¹)
    ∧ ctorScale d N true true = Real.sqrt (∏ ii, ((N ii : ℝ))⁻¹)
    ∧ (1 ≤ d → ∀ (inverse : Bool) (y : Fin d → ℕ),
        fourierModel d N inverse corner symmetric img y
          = ((ctorScale d N inverse symmetric : ℝ) : ℂ)
            * fourierModelUnscaled d N inverse corner img y) := by
  obtain ⟨hc1, hc2, hc3, hc4⟩ := ctorScale_values d N
  exact ⟨fourierModel_roundtrip d N hN corner symmetric img x hx,
    fourierModel_fast_roundtrip d N Npad hN hpad corner symmetric img x hx,
    hc1, hc2, hc3, hc4,
    fun hd inverse y => fourierModel_scale_once d hd N hN inverse corner symmetric img y⟩

/-- Witness for C6 on a concrete instance: a 1-D line of 3 samples padded to
4, shifted origin, plain (non-symmetric) forward and inverse transforms. -/
theorem fourierTransform_roundtrip_and_scaling_witness :
    ((∀ i : Fin 1, 1 ≤ (fun _ : Fin 1 => (3 : ℕ)) i)
      ∧ (∀ i : Fin 1, (fun _ : Fin 1 => (3 : ℕ)) i ≤ (fun _ : Fin 1 => (4 : ℕ)) i)
      ∧ (∀ i : Fin 1, (fun _ : Fin 1 => (0 : ℕ)) i < (fun _ : Fin 1 => (3 : ℕ)) i))
    ∧ (fourierModel 1 (fun _ => 3) true false false
          (fourierModel 1 (fun _ => 3) false false false
            (fun _ => (37 : ℂ))) (fun _ => 0)
          = (fun _ : Fin 1 → ℕ => (37 : ℂ)) (fun _ => 0)
      ∧ cropAt (fun _ => 3) (fun _ => 4)
          (fourierModel 1 (fun _ => 4) true false false
            (fourierModel 1 (fun _ => 4) false false false
              (padExtend (fun _ => 3) (fun _ => 4) (fun _ => (37 : ℂ)))))
          (fun _ => 0)
          = (fun _ : Fin 1 → ℕ => (37 : ℂ)) (fun _ => 0)
      ∧ ctorScale 1 (fun _ => 3) false false = 1
      ∧ ctorScale 1 (fun _ => 3) true false = ∏ ii : Fin 1, (((fun _ : Fin 1 => (3 : ℕ)) ii : ℝ))⁻¹
      ∧ ctorScale 1 (fun _ => 3) false true
          = Real.sqrt (∏ ii : Fin 1, (((fun _ : Fin 1 => (3 : ℕ)) ii : ℝ))⁻¹)
      ∧ ctorScale 1 (fun _ => 3) true true
          = Real.sqrt (∏ ii : Fin 1, (((fun _ : Fin 1 => (3 : ℕ)) ii : ℝ))⁻¹)
      ∧ (1 ≤ 1 → ∀ (inverse : Bool) (y : Fin 1 → ℕ),
          fourierModel 1 (fun _ => 3) inverse false false (fun _ => (37 : ℂ)) y
            = ((ctorScale 1 (fun _ => 3) inverse false : ℝ) : ℂ)
              * fourierModelUnscaled 1 (fun _ => 3) inverse false (fun _ => (37 : ℂ)) y)) :=
  ⟨⟨by decide, by decide, by decide⟩,
    fourierTransform_roundtrip_and_scaling 1 (fun _ => 3) (fun _ => 4) false false
      (fun _ => (37 : ℂ)) (fun _ => 0) (by decide) (by decide) (by decide)⟩

end DIP
